import Mathlib

/-!
Verification of the reconciliation engine of the glance image sync tool
(`glance_sync.py`).  The development is a shallow embedding of the
program's core: the catalog selector (`get_images_dict`), the local
download cache (`download_image`), the reconciliation driver
(`sync_images`, including the replace sequence and its error handler),
and the scratch cleanup (`clean_tmp_dir`).

Modelling conventions:
 * Image stores are finite lists of `StoreImage` (reported metadata record
   plus the content bytes behind it) with a counter supplying
   store-assigned identifiers for created images (`genId`, an injective
   family of strings: identifiers are opaque store-assigned strings).
 * A store's checksum of uploaded content is an abstract function
   `hash : List Nat → String`; a missing (Python-falsy) checksum is `""`.
 * The regular-expression engine behind `re.match(pattern, name)` is an
   external library; it is abstracted as a Boolean parameter
   `rm : String → String → Bool` (pattern, name).  `re.match` itself is
   prefix-anchored; the selection logic around it is what is verified.
 * The local filesystem is a finite map from path to byte list; a chunked
   transfer is modelled byte-by-byte, and an I/O error while streaming is
   an oracle `Option Nat` giving the index at which the write raises.
 * Store operations that can raise (rename of a missing id, delete of a
   missing id) and the steps of the replace sequence are driven by
   failure oracles; an uncaught exception is the `raised` flag, which
   propagates exactly as the Python `raise` does (out of `sync_images`).
-/

namespace GlanceSync

/-- BACKUP_SUFFIX constant from the source. -/
def BACKUP_SUFFIX : String := "sync_bak"

/-- Backup name `'%s_%s' % (image['name'], BACKUP_SUFFIX)` from `sync_images`. -/
def backupName (n : String) : String := n ++ "_" ++ BACKUP_SUFFIX

/-- Metadata record of one image as a glance store reports it in a listing:
identifier, name, size, checksum (`""` models a missing/falsy checksum) and
the transferable metadata fields.  `protected_flag` renders the source's
`protected` field (a Lean keyword). -/
structure ImageRec where
  id : String
  name : String
  size : Nat
  checksum : String
  tags : List String
  container_format : String
  min_ram : Nat
  visibility : String
  min_disk : Nat
  disk_format : String
  protected_flag : Bool
  deriving DecidableEq

/-- The exact argument list `create_image` passes to
`glance.images.create` (lines 183-191 of the source): name, tags,
container_format, min_ram, visibility, min_disk, disk_format, protected.
The identifier, checksum and size of the given record are not fields. -/
structure CreatePayload where
  name : String
  tags : List String
  container_format : String
  min_ram : Nat
  visibility : String
  min_disk : Nat
  disk_format : String
  protected_flag : Bool
  deriving DecidableEq

/-- The payload `create_image(**image)` extracts from a full image record. -/
def create_payload (image : ImageRec) : CreatePayload :=
  { name := image.name, tags := image.tags,
    container_format := image.container_format, min_ram := image.min_ram,
    visibility := image.visibility, min_disk := image.min_disk,
    disk_format := image.disk_format, protected_flag := image.protected_flag }

/-- One image held by a store: its reported record plus the content bytes
behind it; `uploaded` is false until bytes have been uploaded into it. -/
structure StoreImage where
  irec : ImageRec
  content : List Nat
  uploaded : Bool
  deriving DecidableEq

/-- A glance store: the listed images (in listing order) and a counter
from which store-assigned identifiers of created images are drawn. -/
structure Store where
  images : List StoreImage
  counter : Nat
  deriving DecidableEq

/-- Store-assigned opaque identifier of the n-th created image, modelled as
an injective family of strings. -/
def genId (n : Nat) : String := String.mk (List.replicate (n + 1) 'g')

/-- A freshly created (not yet uploaded) image from a create payload:
size and checksum are store-assigned later, at upload time. -/
def newImage (i : String) (p : CreatePayload) : StoreImage :=
  { irec := { id := i, name := p.name, size := 0, checksum := "",
              tags := p.tags, container_format := p.container_format,
              min_ram := p.min_ram, visibility := p.visibility,
              min_disk := p.min_disk, disk_format := p.disk_format,
              protected_flag := p.protected_flag },
    content := [], uploaded := false }

/-- The image a create-then-upload pair leaves on a store: payload metadata,
uploaded content, store-computed size and checksum. -/
def uploadedImage (hash : List Nat → String) (i : String) (p : CreatePayload)
    (bytes : List Nat) : StoreImage :=
  { irec := { id := i, name := p.name, size := bytes.length,
              checksum := hash bytes, tags := p.tags,
              container_format := p.container_format, min_ram := p.min_ram,
              visibility := p.visibility, min_disk := p.min_disk,
              disk_format := p.disk_format,
              protected_flag := p.protected_flag },
    content := bytes, uploaded := true }

/-- First image of the store with the given identifier. -/
def Store.findById (s : Store) (i : String) : Option StoreImage :=
  s.images.find? (fun img => img.irec.id == i)

/-- `rename_image`: update the name of the image with identifier `i`. -/
def Store.renameImage (s : Store) (i newName : String) : Store :=
  { s with images := s.images.map (fun img =>
      if img.irec.id == i then { img with irec := { img.irec with name := newName } }
      else img) }

/-- `upload_image`: replace the content of the image with identifier `i`;
the store recomputes its size and checksum from the content. -/
def Store.uploadImage (s : Store) (hash : List Nat → String) (i : String)
    (bytes : List Nat) : Store :=
  { s with images := s.images.map (fun img =>
      if img.irec.id == i then
        { irec := { img.irec with size := bytes.length, checksum := hash bytes },
          content := bytes, uploaded := true }
      else img) }

/-- `create_image`: append a fresh image built from the payload, with a
store-assigned identifier; returns the created image and the new store. -/
def Store.createImage (s : Store) (p : CreatePayload) : StoreImage × Store :=
  let img := newImage (genId s.counter) p
  (img, { images := s.images ++ [img], counter := s.counter + 1 })

/-- `delete_image`: remove the image with identifier `i`; `none` models the
store raising (HTTP 404) when no image has that identifier. -/
def Store.deleteImage (s : Store) (i : String) : Option Store :=
  match s.findById i with
  | some _ => some { s with images := s.images.filter (fun img => img.irec.id != i) }
  | none => none

/-- Content bytes the store streams for identifier `i` (`images.data`). -/
def Store.dataOf (s : Store) (i : String) : List Nat :=
  match s.findById i with
  | some img => img.content
  | none => []

/-- Size the store reports for identifier `i` (`get_image(id)['size']`). -/
def Store.reportedSize (s : Store) (i : String) : Nat :=
  match s.findById i with
  | some img => img.irec.size
  | none => 0

/-- Lookup in an association list keyed by strings (Python dict `get` /
`in`); first match wins, and the building operations keep keys unique. -/
def alistGet {α : Type} (k : String) : List (String × α) → Option α
  | [] => none
  | (k', v) :: rest => if k' = k then some v else alistGet k rest

/-- Python truthiness of the `pattern` argument: `None` and `""` are falsy. -/
def patTruthy : Option String → Bool
  | none => false
  | some p => p ≠ ""

/-- The per-image selection decision of `get_images_dict` (lines 124-133):
a name-list hit, else a pattern match, and select-all when neither a name
list nor a pattern is given. -/
def addImage (rm : String → String → Bool) (image_names : List String)
    (pattern : Option String) (n : String) : Bool :=
  let add1 := image_names.any (fun name => name == n)
  let add2 := if !add1 && patTruthy pattern then rm (pattern.getD "") n else add1
  if image_names.isEmpty && !patTruthy pattern then true else add2

/-- Python dict insertion: overwrite the value at an existing key in place,
append a new key at the end. -/
def dinsert (k : String) (v : ImageRec) :
    List (String × ImageRec) → List (String × ImageRec)
  | [] => [(k, v)]
  | (k', v') :: rest =>
      if k' == k then (k, v) :: rest else (k', v') :: dinsert k v rest

/-- One iteration of the `get_images_dict` loop. -/
def gidStep (rm : String → String → Bool) (image_names : List String)
    (pattern : Option String) (d : List (String × ImageRec)) (image : ImageRec) :
    List (String × ImageRec) :=
  if addImage rm image_names pattern image.name then dinsert image.name image d else d

/-- `get_images_dict` over a store listing: the selection map from image
name to image record, built left to right over the listing. -/
def get_images_dict (rm : String → String → Bool) (listing : List ImageRec)
    (image_names : List String) (pattern : Option String) :
    List (String × ImageRec) :=
  listing.foldl (gidStep rm image_names pattern) []

/-- The dict's values in iteration order (`itervalues`). -/
def dvalues (d : List (String × ImageRec)) : List ImageRec := d.map (fun e => e.2)

/-- The selection criterion exactly as the spec words it: name in the list,
or pattern truthy and matching, or both selectors empty (select-all). -/
def specSelected (rm : String → String → Bool) (image_names : List String)
    (pattern : Option String) (n : String) : Prop :=
  n ∈ image_names
    ∨ (patTruthy pattern = true ∧ rm (pattern.getD "") n = true)
    ∨ (image_names = [] ∧ patTruthy pattern = false)

/-- Last record with the given name in listing order (last-seen wins). -/
def lastRecNamed (n : String) : List ImageRec → Option ImageRec
  | [] => none
  | i :: rest =>
      match lastRecNamed n rest with
      | some v => some v
      | none => if i.name == n then some i else none

/-- The local scratch filesystem: a finite map from path to byte content. -/
abbrev FS := List (String × List Nat)

def fsGet (fs : FS) (p : String) : Option (List Nat) := alistGet p fs

def fsRemove (fs : FS) (p : String) : FS := fs.filter (fun e => e.1 != p)

def fsSet (fs : FS) (p : String) (c : List Nat) : FS := (p, c) :: fsRemove fs p

/-- Result of `download_image`: the filesystem afterwards, the returned
path, whether content was transferred, and whether a transfer I/O error
was caught and logged. -/
structure DlResult where
  fs : FS
  path : String
  transferred : Bool
  errLogged : Bool
  deriving DecidableEq

/-- The streaming write of `download_image` (lines 159-166): open the file
(truncating), write the content chunk by chunk; an I/O error at chunk `k`
is logged and leaves the partially written file in place. -/
def streamTo (master : Store) (i : String) (fs0 : FS) (file_path : String)
    (io : Option Nat) : DlResult :=
  match io with
  | none => ⟨fsSet fs0 file_path (Store.dataOf master i), file_path, true, false⟩
  | some k => ⟨fsSet fs0 file_path ((Store.dataOf master i).take k), file_path, true, true⟩

/-- `download_image` (lines 138-166): reuse the cache file when its size
equals the store-reported size, else unlink any stale file and stream the
content fresh; the file path is returned in every case. -/
def download_image (master : Store) (fs : FS) (dir i : String)
    (io : Option Nat) : DlResult :=
  let file_path := dir ++ "/" ++ i
  match fsGet fs file_path with
  | some c =>
      if Store.reportedSize master i != c.length then
        streamTo master i (fsRemove fs file_path) file_path io
      else ⟨fs, file_path, false, false⟩
  | none => streamTo master i fs file_path io

/-- The staleness comparison of `sync_images` (lines 268-271): compare by
checksum, falling back to size when either side's checksum is falsy; true
means the slave copy must be replaced. -/
def stale (image slave_image : ImageRec) : Bool :=
  if image.checksum == "" || slave_image.checksum == "" then
    image.size != slave_image.size
  else
    image.checksum != slave_image.checksum

/-- Store operations the engine performs against a slave (an action is
recorded when the operation executes successfully). -/
inductive Action where
  | download (id : String)
  | create (p : CreatePayload)
  | upload (id : String) (path : String)
  | rename (id : String) (newName : String)
  | delete (id : String)
  deriving DecidableEq

/-- The four store steps of the replace sequence, used by failure oracles. -/
inductive RStep where
  | renameOld
  | createNew
  | uploadNew
  | deleteOld
  deriving DecidableEq

/-- State after processing one master image against one slave: the slave
store, the scratch filesystem, the successful actions, whether an uncaught
exception is propagating, and the image names/ids logged as errors. -/
structure StepRes where
  slave : Store
  fs : FS
  acts : List Action
  raised : Bool
  logs : List String
  deriving DecidableEq

/-- The log entry a caught download I/O error produces. -/
def dlLogs (dl : DlResult) (i : String) : List String :=
  if dl.errLogged then [i] else []

/-- The `except` handler of the replace sequence (lines 279-286): log, then
re-query the slave's full catalog; if an image still bears the original
name, call `delete_image` with that NAME as the identifier and re-raise;
otherwise the exception is swallowed and the loop continues.  A raise from
the name-as-id delete itself (no image has that identifier) propagates the
same way.  `raised = true` aborts the rest of the run. -/
def handleErr (rm : String → String → Bool) (image : ImageRec) (s : Store)
    (fs : FS) (acts : List Action) (logs : List String) : StepRes :=
  let logs' := logs ++ [image.name]
  if (alistGet image.name
        (get_images_dict rm (s.images.map (fun i => i.irec)) [] none)).isSome then
    match Store.deleteImage s image.name with
    | some s' => ⟨s', fs, acts ++ [Action.delete image.name], true, logs'⟩
    | none => ⟨s, fs, acts, true, logs'⟩
  else ⟨s, fs, acts, false, logs'⟩

/-- Replace-sequence state after the rename step: the stale slave image is
renamed to its backup name. -/
def replaceS1 (s : Store) (srecId imageName : String) : Store :=
  Store.renameImage s srecId (backupName imageName)

/-- Replace-sequence state after the create step: a new image with the
original name and the master's transferable metadata. -/
def replaceS2 (image : ImageRec) (s1 : Store) : StoreImage × Store :=
  Store.createImage s1 (create_payload image)

/-- Replace-sequence state after the upload step: the downloaded bytes are
uploaded into the newly created image. -/
def replaceS3 (hash : List Nat → String) (image : ImageRec) (bytes : List Nat)
    (s1 : Store) : Store :=
  Store.uploadImage (replaceS2 image s1).2 hash (replaceS2 image s1).1.irec.id bytes

/-- The replace sequence with its error handler (lines 272-286): download,
then try rename-backup, create, upload, delete-backup; any failing step
(or a rename of a vanished id, or a failing final delete) enters
`handleErr`. -/
def syncReplace (hash : List Nat → String) (rm : String → String → Bool)
    (master : Store) (io : String → Option Nat) (orc : String → RStep → Bool)
    (path : String) (image srec : ImageRec) (s : Store) (fs : FS) : StepRes :=
  let dl := download_image master fs path image.id (io image.id)
  let a0 := [Action.download image.id]
  let l0 := dlLogs dl image.id
  if orc image.name RStep.renameOld || (Store.findById s srec.id).isNone then
    handleErr rm image s dl.fs a0 l0
  else
    let s1 := replaceS1 s srec.id image.name
    let a1 := a0 ++ [Action.rename srec.id (backupName image.name)]
    if orc image.name RStep.createNew then handleErr rm image s1 dl.fs a1 l0
    else
      let cs := replaceS2 image s1
      let a2 := a1 ++ [Action.create (create_payload image)]
      if orc image.name RStep.uploadNew then handleErr rm image cs.2 dl.fs a2 l0
      else
        let bytes := (fsGet dl.fs dl.path).getD []
        let s3 := replaceS3 hash image bytes s1
        let a3 := a2 ++ [Action.upload cs.1.irec.id dl.path]
        if orc image.name RStep.deleteOld then handleErr rm image s3 dl.fs a3 l0
        else
          match Store.deleteImage s3 srec.id with
          | some s4 => ⟨s4, dl.fs, a3 ++ [Action.delete srec.id], false, l0⟩
          | none => handleErr rm image s3 dl.fs a3 l0

/-- Processing of one master image against one slave (the body of the inner
loop of `sync_images`, lines 260-286): create path when the name is absent
from the slave's selection, else compare and either skip or replace. -/
def syncOneImage (hash : List Nat → String) (rm : String → String → Bool)
    (master : Store) (io : String → Option Nat) (orc : String → RStep → Bool)
    (path : String) (slave_images : List (String × ImageRec)) (image : ImageRec)
    (s : Store) (fs : FS) : StepRes :=
  match alistGet image.name slave_images with
  | some srec =>
      if stale image srec then syncReplace hash rm master io orc path image srec s fs
      else ⟨s, fs, [], false, []⟩
  | none =>
      let dl := download_image master fs path image.id (io image.id)
      let cs := Store.createImage s (create_payload image)
      let bytes := (fsGet dl.fs dl.path).getD []
      let s2 := Store.uploadImage cs.2 hash cs.1.irec.id bytes
      ⟨s2, dl.fs,
       [Action.download image.id, Action.create (create_payload image),
        Action.upload cs.1.irec.id dl.path],
       false, dlLogs dl image.id⟩

/-- The inner loop of `sync_images` over the master's selection for one
slave; an uncaught exception stops the loop (and, upstream, the run). -/
def syncLoop (hash : List Nat → String) (rm : String → String → Bool)
    (master : Store) (io : String → Option Nat) (orc : String → RStep → Bool)
    (path : String) (slave_images : List (String × ImageRec)) :
    List ImageRec → Store → FS → StepRes
  | [], s, fs => ⟨s, fs, [], false, []⟩
  | image :: rest, s, fs =>
      let r := syncOneImage hash rm master io orc path slave_images image s fs
      if r.raised then r
      else
        let r2 := syncLoop hash rm master io orc path slave_images rest r.slave r.fs
        ⟨r2.slave, r2.fs, r.acts ++ r2.acts, r2.raised, r.logs ++ r2.logs⟩

/-- Reconciliation of one slave: query the slave's selection once, then
process every master image in iteration order. -/
def syncSlave (hash : List Nat → String) (rm : String → String → Bool)
    (master : Store) (io : String → Option Nat) (orc : String → RStep → Bool)
    (path : String) (image_names : List String) (pattern : Option String)
    (master_vals : List ImageRec) (s : Store) (fs : FS) : StepRes :=
  let slave_images :=
    get_images_dict rm (s.images.map (fun i => i.irec)) image_names pattern
  syncLoop hash rm master io orc path slave_images master_vals s fs

/-- Result of a whole run: the slave stores afterwards, the filesystem,
the per-slave action lists (for the slaves that were reached), whether an
uncaught exception escaped `sync_images`, and the error log. -/
structure SyncRes where
  slaves : List Store
  fs : FS
  acts : List (List Action)
  raised : Bool
  logs : List String
  deriving DecidableEq

/-- The outer loop of `sync_images` over the slaves; an exception raised
against one slave propagates out, leaving the remaining slaves untouched. -/
def syncSlaves (hash : List Nat → String) (rm : String → String → Bool)
    (master : Store) (io : String → Option Nat)
    (orc : Nat → String → RStep → Bool) (path : String)
    (image_names : List String) (pattern : Option String)
    (master_vals : List ImageRec) : Nat → List Store → FS → SyncRes
  | _, [], fs => ⟨[], fs, [], false, []⟩
  | idx, s :: rest, fs =>
      let r := syncSlave hash rm master io (orc idx) path image_names pattern
                 master_vals s fs
      if r.raised then ⟨r.slave :: rest, r.fs, [r.acts], true, r.logs⟩
      else
        let rr := syncSlaves hash rm master io orc path image_names pattern
                    master_vals (idx + 1) rest r.fs
        ⟨r.slave :: rr.slaves, rr.fs, r.acts :: rr.acts, rr.raised, r.logs ++ rr.logs⟩

/-- `sync_images` (lines 240-287): one master listing, then each slave in
order. -/
def sync_images (hash : List Nat → String) (rm : String → String → Bool)
    (master : Store) (slaves : List Store) (image_names : List String)
    (pattern : Option String) (path : String) (io : String → Option Nat)
    (orc : Nat → String → RStep → Bool) (fs : FS) : SyncRes :=
  let master_images :=
    get_images_dict rm (master.images.map (fun i => i.irec)) image_names pattern
  syncSlaves hash rm master io orc path image_names pattern
    (dvalues master_images) 0 slaves fs

/-- The scratch directory for `clean_tmp_dir`: entries are (path, isDir). -/
abbrev DirFS := List (String × Bool)

/-- Whether a character list contains a path separator. -/
def hasSlash : List Char → Bool
  | [] => false
  | c :: rest => c == '/' || hasSlash rest

/-- Whether a path is matched by `glob(os.path.join(tmp_dir, '*'))`: a
direct, non-hidden child of the directory. -/
def globMatch (dir p : String) : Bool :=
  let pre := (dir ++ "/").data
  let pd := p.data
  (pd.take pre.length == pre) && decide (pre.length < pd.length)
    && !((pd.drop pre.length).take 1 == ['.']) && !(hasSlash (pd.drop pre.length))

/-- The glob listing, in filesystem order. -/
def globList (fs : DirFS) (dir : String) : List String :=
  (fs.filter (fun e => globMatch dir e.1)).map (fun e => e.1)

/-- `os.unlink`: remove a regular file; `none` models the raise on a
directory (IsADirectoryError) or a missing entry. -/
def unlinkAt (fs : DirFS) (p : String) : Option DirFS :=
  match fs.find? (fun e => e.1 == p) with
  | some e => if e.2 then none else some (fs.filter (fun e2 => e2.1 != p))
  | none => none

/-- The unlink loop of `clean_tmp_dir`: entries in order, stopping at the
first failing unlink with the error (the failing path) propagating. -/
def cleanGo : List String → DirFS → Except (String × DirFS) DirFS
  | [], fs => Except.ok fs
  | p :: rest, fs =>
      match unlinkAt fs p with
      | some fs' => cleanGo rest fs'
      | none => Except.error (p, fs)

/-- `clean_tmp_dir` (lines 289-299). -/
def clean_tmp_dir (fs : DirFS) (dir : String) : Except (String × DirFS) DirFS :=
  cleanGo (globList fs dir) fs

/-- The scratch cache is coherent with the master: any cached file for a
master image's identifier holds that image's content. -/
def fsCoherent (master : Store) (path : String) (fs : FS) : Prop :=
  ∀ mi ∈ master.images, ∀ c, fsGet fs (path ++ "/" ++ mi.irec.id) = some c →
    c = mi.content

/-- A well-formed master store: each record's size is its content length,
its checksum is absent or the store-computed checksum of its content, and
identifiers are distinct. -/
def masterWf (hash : List Nat → String) (master : Store) : Prop :=
  (∀ mi ∈ master.images,
      mi.irec.size = mi.content.length ∧
        (mi.irec.checksum = "" ∨ mi.irec.checksum = hash mi.content))
    ∧ (master.images.map (fun i => i.irec.id)).Nodup

/-- An identifier that can never collide with a store-assigned identifier
the store will generate from counter `c` on. -/
def idFresh (c : Nat) (i : String) : Prop := ∀ k, c ≤ k → i ≠ genId k

/-- A well-formed slave store: names unique, identifiers unique, and no
identifier collides with a future store-assigned identifier. -/
def slaveWf (s : Store) : Prop :=
  (s.images.map (fun i => i.irec.name)).Nodup
    ∧ (s.images.map (fun i => i.irec.id)).Nodup
    ∧ ∀ img ∈ s.images, idFresh s.counter img.irec.id

/-- The images of a store bearing a given name, in listing order. -/
def imagesNamed (s : Store) (q : String) : List StoreImage :=
  s.images.filter (fun i => i.irec.name == q)

/-- A slave agrees with every given master record: exactly one image under
each such name, comparing equal under the engine's staleness test. -/
def syncedFor (vals : List ImageRec) (s : Store) : Prop :=
  ∀ m ∈ vals, ∃ img, imagesNamed s m.name = [img] ∧ stale m img.irec = false

/-- An all-success replace-step oracle. -/
def orc0 : String → RStep → Bool := fun _ _ => false

/-- An all-success replace-step oracle for every slave. -/
def orcN0 : Nat → String → RStep → Bool := fun _ _ _ => false

/-- A no-failure transfer oracle. -/
def io0 : String → Option Nat := fun _ => none

/-- A transfer oracle failing at chunk `k` for identifier `i`. -/
def ioAt (i : String) (k : Nat) : String → Option Nat :=
  fun j => if j == i then some k else none

/-- Concrete regex oracle for witnesses: anchored literal-text match. -/
def rm0 : String → String → Bool := fun p n => n.data.take p.data.length == p.data

/-- Concrete checksum function for witnesses. -/
def hash0 : List Nat → String := fun c => if c = [1] then "chk1" else "chk2"

/-- Concrete master image for the idempotence scenarios. -/
def mImgX : StoreImage :=
  { irec := { id := "mid1", name := "x", size := 1, checksum := "chk1",
              tags := [], container_format := "bare", min_ram := 0,
              visibility := "public", min_disk := 0, disk_format := "raw",
              protected_flag := false },
    content := [1], uploaded := true }

/-- Concrete master store holding `mImgX`. -/
def master0 : Store := ⟨[mImgX], 0⟩

/-- An empty slave store. -/
def slaveE : Store := ⟨[], 0⟩

/-- A scratch filesystem poisoned with a wrong-content, right-size cache
file for `mImgX`. -/
def fsPoison : FS := [("/tmp/mid1", [2])]

/-- The first run of the poisoned-cache idempotence scenario. -/
def runPoison1 : SyncRes :=
  sync_images hash0 rm0 master0 [slaveE] [] none "/tmp" io0 orcN0 fsPoison

/-- The second run of the poisoned-cache idempotence scenario. -/
def runPoison2 : SyncRes :=
  sync_images hash0 rm0 master0 runPoison1.slaves [] none "/tmp" io0 orcN0
    runPoison1.fs

/-- Concrete master images for the failure-swallowing scenario. -/
def mImgA : StoreImage :=
  { irec := { id := "ma", name := "a", size := 1, checksum := "ca",
              tags := [], container_format := "bare", min_ram := 0,
              visibility := "public", min_disk := 0, disk_format := "raw",
              protected_flag := false },
    content := [1], uploaded := true }

def mImgB : StoreImage :=
  { irec := { id := "mb", name := "b", size := 1, checksum := "cb",
              tags := [], container_format := "bare", min_ram := 0,
              visibility := "public", min_disk := 0, disk_format := "raw",
              protected_flag := false },
    content := [3], uploaded := true }

/-- Concrete two-image master for the failure-swallowing scenario. -/
def master1 : Store := ⟨[mImgA, mImgB], 0⟩

/-- A slave holding a stale copy of image "a". -/
def slave1 : Store :=
  ⟨[{ irec := { id := "sa", name := "a", size := 1, checksum := "old",
                tags := [], container_format := "bare", min_ram := 0,
                visibility := "public", min_disk := 0, disk_format := "raw",
                protected_flag := false },
      content := [9], uploaded := true }], 0⟩

/-- An oracle that fails the create step of the replace sequence for
image "a" only. -/
def orcFailCreateA : Nat → String → RStep → Bool :=
  fun _ n st => n == "a" && (match st with | RStep.createNew => true | _ => false)

/-- The failure-swallowing run: the replace sequence for "a" fails at the
create step on the only slave. -/
def runSwallow : SyncRes :=
  sync_images hash0 rm0 master1 [slave1] [] none "/tmp" io0 orcFailCreateA []

/-- Two records sharing the name "d" to exhibit last-seen-wins. -/
def dupD1 : ImageRec :=
  { id := "d1", name := "d", size := 1, checksum := "c1", tags := [],
    container_format := "bare", min_ram := 0, visibility := "public",
    min_disk := 0, disk_format := "raw", protected_flag := false }

def dupD2 : ImageRec :=
  { id := "d2", name := "d", size := 2, checksum := "c2", tags := [],
    container_format := "bare", min_ram := 0, visibility := "public",
    min_disk := 0, disk_format := "raw", protected_flag := false }

/-- A listing with a duplicated name. -/
def LDup : List ImageRec := [dupD1, dupD2]

/-- A cache filesystem already holding the (correct) bytes of `mImgX`. -/
def fsHit : FS := [("/tmp/mid1", [1])]

/-- A slave still holds the data of the given (old) image, under whatever
name, somewhere in its catalog. -/
def holdsContentOf (st : Store) (old : StoreImage) : Prop :=
  ∃ img ∈ st.images, img.irec.id = old.irec.id ∧ img.content = old.content

/-- A slave holds an uploaded copy of the given bytes under the given name. -/
def holdsNewCopy (st : Store) (n : String) (bytes : List Nat) : Prop :=
  ∃ img ∈ st.images, img.irec.name = n ∧ img.uploaded = true ∧ img.content = bytes

/-- Concrete old slave image for the replace-sequence witness. -/
def oldC2 : StoreImage :=
  { irec := { id := "s1", name := "n", size := 1, checksum := "oc", tags := [],
              container_format := "bare", min_ram := 0, visibility := "public",
              min_disk := 0, disk_format := "raw", protected_flag := false },
    content := [5], uploaded := true }

/-- Concrete slave store for the replace-sequence witness. -/
def slaveC2 : Store := ⟨[oldC2], 0⟩

/-- Concrete master record for the replace-sequence witness. -/
def mC2 : ImageRec :=
  { id := "m1", name := "n", size := 1, checksum := "nc", tags := [],
    container_format := "bare", min_ram := 0, visibility := "public",
    min_disk := 0, disk_format := "raw", protected_flag := false }

/-- Concrete scratch directory for the cleanup witness. -/
def fsC : DirFS := [("/t/a", false), ("/t/b", true), ("/t/c", false)]

/-- Post-state contract of one slave's successful first reconciliation
run, relative to the processed master records and the slave pre-state:
no exception, every processed name held by exactly one compare-equal
image, untouched names unchanged, identifier well-formedness kept, and
the scratch cache still coherent. -/
def runPost (master : Store) (path : String) (vals : List ImageRec)
    (s : Store) (r : StepRes) : Prop :=
  r.raised = false
  ∧ (∀ m ∈ vals, ∃ img, imagesNamed r.slave m.name = [img]
      ∧ stale m img.irec = false)
  ∧ (∀ q, q ∉ vals.map (fun m => m.name) → imagesNamed r.slave q = imagesNamed s q)
  ∧ (∀ img ∈ r.slave.images, idFresh r.slave.counter img.irec.id)
  ∧ (r.slave.images.map (fun i => i.irec.id)).Nodup
  ∧ fsCoherent master path r.fs

/-! ## Helper lemmas: the selection dictionary -/

theorem alistGet_dinsert_self (k : String) (v : ImageRec) (d : List (String × ImageRec)) :
    alistGet k (dinsert k v d) = some v := by
  induction d with
  | nil => simp [dinsert, alistGet]
  | cons e rest ih =>
      obtain ⟨k', v'⟩ := e
      by_cases h : k' = k
      · simp [dinsert, h, alistGet]
      · simp [dinsert, h, alistGet, ih]

theorem alistGet_dinsert_ne (n k : String) (v : ImageRec) (d : List (String × ImageRec))
    (h : n ≠ k) : alistGet n (dinsert k v d) = alistGet n d := by
  induction d with
  | nil => simp [dinsert, alistGet, Ne.symm h]
  | cons e rest ih =>
      obtain ⟨k', v'⟩ := e
      by_cases hk : k' = k
      · subst hk
        simp [dinsert, alistGet, Ne.symm h]
      · by_cases hn : k' = n
        · subst hn
          simp [dinsert, hk, alistGet]
        · simp [dinsert, hk, alistGet, hn, ih]

theorem lastRecNamed_mem (n : String) (L : List ImageRec) (v : ImageRec)
    (h : lastRecNamed n L = some v) : v ∈ L ∧ v.name = n := by
  induction L with
  | nil => simp [lastRecNamed] at h
  | cons i rest ih =>
      cases hr : lastRecNamed n rest with
      | some w =>
          simp only [lastRecNamed, hr] at h
          obtain rfl := Option.some.inj h
          obtain ⟨hm, hn⟩ := ih hr
          exact ⟨List.mem_cons_of_mem _ hm, hn⟩
      | none =>
          simp only [lastRecNamed, hr] at h
          by_cases hi : i.name = n
          · simp only [hi, beq_self_eq_true, if_true, Option.some.injEq] at h
            exact ⟨by simp [← h], by rw [← h]; exact hi⟩
          · simp [hi] at h

theorem lastRecNamed_eq_none (n : String) (L : List ImageRec) :
    lastRecNamed n L = none ↔ ∀ v ∈ L, v.name ≠ n := by
  induction L with
  | nil => simp [lastRecNamed]
  | cons i rest ih =>
      cases hr : lastRecNamed n rest with
      | some w =>
          simp only [lastRecNamed, hr, reduceCtorEq, false_iff]
          intro hall
          have hnone := ih.mpr (fun v hv => hall v (List.mem_cons_of_mem _ hv))
          rw [hnone] at hr
          exact Option.noConfusion hr
      | none =>
          by_cases hi : i.name = n
          · simp [lastRecNamed, hr, hi]
          · simp only [lastRecNamed, hr, hi, beq_iff_eq, if_false, List.mem_cons]
            constructor
            · intro _ v hv
              rcases hv with h | h
              · rw [h]; exact hi
              · exact (ih.mp hr) v h
            · intro _
              trivial

theorem lastRecNamed_isSome (n : String) (L : List ImageRec) (v : ImageRec)
    (hv : v ∈ L) (hn : v.name = n) : ∃ w, lastRecNamed n L = some w := by
  cases h : lastRecNamed n L with
  | some w => exact ⟨w, rfl⟩
  | none => exact absurd hn ((lastRecNamed_eq_none n L).mp h v hv)

theorem alistGet_gid_foldl (rm : String → String → Bool) (N : List String)
    (P : Option String) (n : String) (L : List ImageRec) (d : List (String × ImageRec)) :
    alistGet n (List.foldl (gidStep rm N P) d L) =
      match (if addImage rm N P n then lastRecNamed n L else none) with
      | some v => some v
      | none => alistGet n d := by
  induction L generalizing d with
  | nil => cases hsel : addImage rm N P n <;> simp [lastRecNamed]
  | cons img rest ih =>
      simp only [List.foldl_cons]
      rw [ih]
      by_cases hsel : addImage rm N P n
      · simp only [hsel, if_true]
        cases hr : lastRecNamed n rest with
        | some w => simp [lastRecNamed, hr]
        | none =>
            simp only [lastRecNamed, hr]
            by_cases hname : img.name = n
            · subst hname
              simp only [beq_self_eq_true, if_true]
              simp only [gidStep, hsel, if_true]
              simp [alistGet_dinsert_self]
            · simp only [beq_iff_eq, hname, if_false]
              simp only [gidStep]
              by_cases hsel2 : addImage rm N P img.name
              · simp only [hsel2, if_true]
                exact alistGet_dinsert_ne n img.name img d (fun h => hname h.symm)
              · simp [hsel2]
      · simp only [hsel, if_false]
        simp only [gidStep]
        by_cases hsel2 : addImage rm N P img.name
        · simp only [hsel2, if_true]
          refine alistGet_dinsert_ne n img.name img d ?_
          intro h
          rw [← h] at hsel2
          exact hsel hsel2
        · simp [hsel2]

theorem alistGet_get_images_dict (rm : String → String → Bool) (L : List ImageRec)
    (N : List String) (P : Option String) (n : String) :
    alistGet n (get_images_dict rm L N P) =
      if addImage rm N P n then lastRecNamed n L else none := by
  rw [get_images_dict, alistGet_gid_foldl]
  by_cases hsel : addImage rm N P n
  · simp only [hsel, if_true]
    cases hr : lastRecNamed n L with
    | some w => simp
    | none => simp [alistGet]
  · simp [hsel, alistGet]

theorem addImage_iff_specSelected (rm : String → String → Bool) (N : List String)
    (P : Option String) (n : String) :
    addImage rm N P n = true ↔ specSelected rm N P n := by
  simp only [addImage, specSelected]
  by_cases h1 : n ∈ N
  · have hany : N.any (fun name => name == n) = true := by
      simp only [List.any_eq_true, beq_iff_eq]
      exact ⟨n, h1, rfl⟩
    simp only [hany]
    constructor
    · intro _
      exact Or.inl h1
    · intro _
      by_cases he : N.isEmpty && !patTruthy P
      · simp [he]
      · simp [he]
  · have h1' : N.any (fun name => name == n) = false := by
      simp only [List.any_eq_false, beq_iff_eq]
      intro x hx he
      exact h1 (he ▸ hx)
    simp only [h1']
    by_cases hp : patTruthy P
    · have hne : (N.isEmpty && !patTruthy P) = false := by simp [hp]
      simp only [hne, Bool.false_eq_true, if_false, hp, Bool.not_false, Bool.true_and]
      by_cases hm : rm (P.getD "") n
      · simp [hm, h1, hp]
      · simp [hm, h1, hp]
    · have hpf : patTruthy P = false := by simpa using hp
      by_cases he : N = []
      · subst he
        simp [hpf, h1]
      · have hie : N.isEmpty = false := by
          cases N with
          | nil => exact absurd rfl he
          | cons a l => rfl
        simp [hie, hpf, h1, he]

/-- Any action already recorded survives the error handler. -/
theorem handleErr_acts_mem (rm : String → String → Bool) (image : ImageRec)
    (s : Store) (fs : FS) (acts : List Action) (logs : List String) (a : Action)
    (h : a ∈ acts) : a ∈ (handleErr rm image s fs acts logs).acts := by
  unfold handleErr
  by_cases hc : (alistGet image.name
      (get_images_dict rm (s.images.map (fun i => i.irec)) [] none)).isSome
  · simp only [hc, if_true]
    cases hd : Store.deleteImage s image.name with
    | some s' => simp [h]
    | none => simp [h]
  · simp only [Bool.not_eq_true] at hc
    simp [hc, h]

/-- With an all-success step oracle and the stale image present, the
replace sequence records the backup rename. -/
theorem syncReplace_rename_mem (hash : List Nat → String)
    (rm : String → String → Bool) (master : Store) (io : String → Option Nat)
    (path : String) (image srec : ImageRec) (s : Store) (fs : FS)
    (hfnd : (Store.findById s srec.id).isSome) :
    Action.rename srec.id (backupName image.name)
      ∈ (syncReplace hash rm master io orc0 path image srec s fs).acts := by
  have hnn : (Store.findById s srec.id).isNone = false := by
    cases hh : Store.findById s srec.id with
    | some _ => rfl
    | none => rw [hh] at hfnd; simp at hfnd
  simp only [syncReplace, orc0, hnn, Bool.false_or, Bool.false_eq_true, if_false]
  split
  · simp
  · apply handleErr_acts_mem
    simp

/-! ## Claim theorems: catalog selection and comparison -/

/-- C3: for every store listing and every selection (names, pattern),
`get_images_dict` returns exactly the images whose name is in the name
list, or whose name matches the pattern (the abstract `rm` stands for the
prefix-anchored `re.match`), or all listed images when both selectors are
empty; the two criteria are combined with OR.  Left side: the name is a
key of the returned catalog with a value from the listing bearing that
name; right side: such an image is listed and the spec's selection
criterion holds. -/
theorem get_images_dict_select_spec (rm : String → String → Bool)
    (L : List ImageRec) (N : List String) (P : Option String) (n : String) :
    (∃ v, alistGet n (get_images_dict rm L N P) = some v ∧ v ∈ L ∧ v.name = n)
      ↔ ((∃ img ∈ L, img.name = n) ∧ specSelected rm N P n) := by
  rw [alistGet_get_images_dict]
  by_cases hsel : addImage rm N P n
  · simp only [hsel, if_true]
    constructor
    · rintro ⟨v, hv, hm, hn⟩
      exact ⟨⟨v, hm, hn⟩, (addImage_iff_specSelected rm N P n).mp hsel⟩
    · rintro ⟨⟨img, hm, hn⟩, _⟩
      obtain ⟨w, hw⟩ := lastRecNamed_isSome n L img hm hn
      obtain ⟨hwm, hwn⟩ := lastRecNamed_mem n L w hw
      exact ⟨w, hw, hwm, hwn⟩
  · simp only [hsel, if_false]
    constructor
    · rintro ⟨v, hv, _⟩
      exact absurd hv (by simp)
    · rintro ⟨_, hspec⟩
      exact absurd ((addImage_iff_specSelected rm N P n).mpr hspec) hsel

/-- C9: when a listing holds several images with the same (selected) name,
the catalog maps that name to the last-seen matching record in listing
order (`lastRecNamed` walks the listing preferring the later match), so
later records silently overwrite earlier ones. -/
theorem get_images_dict_last_seen (rm : String → String → Bool)
    (L : List ImageRec) (N : List String) (P : Option String) (n : String)
    (h : addImage rm N P n = true) :
    alistGet n (get_images_dict rm L N P) = lastRecNamed n L := by
  rw [alistGet_get_images_dict, if_pos h]

/-- C9 witness: on a listing with two images named "d", the catalog holds
the second. -/
theorem get_images_dict_last_seen_witness :
    alistGet "d" (get_images_dict rm0 LDup [] none) = some dupD2 :=
  (get_images_dict_last_seen rm0 LDup [] none "d" (by decide)).trans (by decide)

/-- C4: the comparison key for a master/slave pair sharing a name is the
checksum exactly when both sides report a non-empty checksum, else the
size; a present image is skipped (no store operation, no action) when the
chosen values are equal, and the replace sequence is entered (its rename
is performed) when they differ; in particular two images with empty
checksums and equal sizes are in sync. -/
theorem compare_key_spec (image srec : ImageRec) :
    (stale image srec = false ↔
      (if image.checksum ≠ "" ∧ srec.checksum ≠ ""
       then image.checksum = srec.checksum
       else image.size = srec.size))
    ∧ (image.checksum = "" → srec.checksum = "" → image.size = srec.size →
        stale image srec = false)
    ∧ ∀ (hash : List Nat → String) (rm : String → String → Bool) (master : Store)
        (io : String → Option Nat) (orc : String → RStep → Bool) (path : String)
        (dict : List (String × ImageRec)) (s : Store) (fs : FS),
        alistGet image.name dict = some srec →
        (stale image srec = false →
          syncOneImage hash rm master io orc path dict image s fs
            = ⟨s, fs, [], false, []⟩)
        ∧ (stale image srec = true → (Store.findById s srec.id).isSome →
            Action.rename srec.id (backupName image.name)
              ∈ (syncOneImage hash rm master io orc0 path dict image s fs).acts) := by
  refine ⟨?_, ?_, ?_⟩
  · by_cases h1 : image.checksum = ""
    · by_cases h2 : srec.checksum = "" <;>
        simp [stale, h1, h2, bne_eq_false_iff_eq]
    · by_cases h2 : srec.checksum = "" <;>
        simp [stale, h1, h2, bne_eq_false_iff_eq]
  · intro h1 h2 h3
    simp [stale, h1, h2, h3]
  · intro hash rm master io orc path dict s fs hlk
    constructor
    · intro hst
      simp [syncOneImage, hlk, hst]
    · intro hst hfnd
      have hnn : (Store.findById s srec.id).isNone = false := by
        cases hh : Store.findById s srec.id with
        | some _ => rfl
        | none => rw [hh] at hfnd; simp at hfnd
      simp only [syncOneImage, hlk, hst, if_true]
      simp only [syncReplace, orc0, hnn, Bool.or_self, Bool.false_or, if_false]
      cases hd : Store.deleteImage (replaceS3 hash image
          ((fsGet (download_image master fs path image.id (io image.id)).fs
            (download_image master fs path image.id (io image.id)).path).getD [])
          (replaceS1 s srec.id image.name)) srec.id with
      | some s4 => simp [hd]
      | none => simp [hd, handleErr_acts_mem]

/-! ## Claim theorems: the download cache -/

theorem fsGet_fsSet_self (fs : FS) (p : String) (c : List Nat) :
    fsGet (fsSet fs p c) p = some c := by
  simp [fsGet, fsSet, alistGet]

theorem fsGet_fsRemove_self (fs : FS) (p : String) :
    fsGet (fsRemove fs p) p = none := by
  induction fs with
  | nil => rfl
  | cons e rest ih =>
      obtain ⟨q, c⟩ := e
      by_cases h : q = p
      · subst h
        simpa [fsRemove, fsGet] using ih
      · simp only [fsRemove, fsGet] at ih ⊢
        simp [List.filter_cons, h, alistGet, ih]

/-- C5: when a cache file already exists at `scratch_dir/identifier` and
its byte length equals the store's reported size, `download_image` returns
that path with no transfer and no filesystem change; when the lengths
differ, the stale file is removed and the full content is streamed fresh
into that path (shown for a run without transfer errors). -/
theorem download_cache_spec (master : Store) (fs : FS) (dir i : String)
    (c : List Nat) (io : Option Nat)
    (h : fsGet fs (dir ++ "/" ++ i) = some c) :
    (c.length = Store.reportedSize master i →
        download_image master fs dir i io = ⟨fs, dir ++ "/" ++ i, false, false⟩)
    ∧ (c.length ≠ Store.reportedSize master i → io = none →
        (download_image master fs dir i io).transferred = true
        ∧ (download_image master fs dir i io).fs
            = fsSet (fsRemove fs (dir ++ "/" ++ i)) (dir ++ "/" ++ i)
                (Store.dataOf master i)
        ∧ fsGet (fsRemove fs (dir ++ "/" ++ i)) (dir ++ "/" ++ i) = none) := by
  constructor
  · intro heq
    have hb : (Store.reportedSize master i != c.length) = false := by
      simp [bne_eq_false_iff_eq, heq]
    simp [download_image, h, hb]
  · intro hne hio
    subst hio
    have hb : (Store.reportedSize master i != c.length) = true := by
      simp only [bne_iff_ne, ne_eq]
      exact fun hh => hne hh.symm
    refine ⟨?_, ?_, fsGet_fsRemove_self fs (dir ++ "/" ++ i)⟩
    · simp [download_image, h, hb, streamTo]
    · simp [download_image, h, hb, streamTo]

/-- C5 witness: a cache hit for `mImgX` transfers nothing. -/
theorem download_cache_spec_witness :
    download_image master0 fsHit "/tmp" "mid1" none
      = ⟨fsHit, "/tmp" ++ "/" ++ "mid1", false, false⟩ :=
  (download_cache_spec master0 fsHit "/tmp" "mid1" [1] none (by decide)).1 (by decide)

/-- C6: when the streamed write raises at chunk `k` (a genuinely partial
write), the error is logged, the partially written file (the first `k`
bytes) is left in place at the returned path, and the create path of the
engine still proceeds for that image (no exception propagates: the create
and upload actions are still performed). -/
theorem download_failure_spec (master : Store) (fs : FS) (dir i : String) (k : Nat)
    (hentry : fsGet fs (dir ++ "/" ++ i) = none ∨
      ∃ c, fsGet fs (dir ++ "/" ++ i) = some c ∧
        c.length ≠ Store.reportedSize master i)
    (hk : k < (Store.dataOf master i).length) :
    (download_image master fs dir i (some k)).errLogged = true
    ∧ (download_image master fs dir i (some k)).path = dir ++ "/" ++ i
    ∧ fsGet (download_image master fs dir i (some k)).fs (dir ++ "/" ++ i)
        = some ((Store.dataOf master i).take k)
    ∧ ((Store.dataOf master i).take k).length < (Store.dataOf master i).length
    ∧ ∀ (hash : List Nat → String) (rm : String → String → Bool)
        (orc : String → RStep → Bool) (path : String)
        (dict : List (String × ImageRec)) (m : ImageRec) (s : Store),
        alistGet m.name dict = none →
        (syncOneImage hash rm master (ioAt i k) orc path dict m s fs).raised = false
        ∧ Action.create (create_payload m)
            ∈ (syncOneImage hash rm master (ioAt i k) orc path dict m s fs).acts := by
  have hdl : download_image master fs dir i (some k)
      = ⟨fsSet (match fsGet fs (dir ++ "/" ++ i) with
                | some _ => fsRemove fs (dir ++ "/" ++ i)
                | none => fs) (dir ++ "/" ++ i) ((Store.dataOf master i).take k),
         dir ++ "/" ++ i, true, true⟩ := by
    rcases hentry with hn | ⟨c, hc, hne⟩
    · simp [download_image, hn, streamTo]
    · have hb : (Store.reportedSize master i != c.length) = true := by
        simp only [bne_iff_ne, ne_eq]
        exact fun hh => hne hh.symm
      simp [download_image, hc, hb, streamTo]
  refine ⟨by rw [hdl], by rw [hdl], ?_, ?_, ?_⟩
  · rw [hdl]
    exact fsGet_fsSet_self _ _ _
  · rw [List.length_take]
    omega
  · intro hash rm orc path dict m s hlk
    constructor
    · simp [syncOneImage, hlk]
    · simp [syncOneImage, hlk]

/-- C6 witness: a failing transfer at chunk 0 for `mImgX` logs the error
and leaves the empty partial file at the returned path. -/
theorem download_failure_spec_witness :
    (download_image master0 [] "/tmp" "mid1" (some 0)).errLogged = true
    ∧ fsGet (download_image master0 [] "/tmp" "mid1" (some 0)).fs
        ("/tmp" ++ "/" ++ "mid1") = some ((Store.dataOf master0 "mid1").take 0) :=
  ⟨(download_failure_spec master0 [] "/tmp" "mid1" 0 (Or.inl (by decide))
      (by decide)).1,
   (download_failure_spec master0 [] "/tmp" "mid1" 0 (Or.inl (by decide))
      (by decide)).2.2.1⟩

/-! ## Claim theorems: scratch cleanup -/

theorem alistGet_filterOut_self {α : Type} (l : List (String × α)) (p : String) :
    alistGet p (l.filter (fun e => e.1 != p)) = none := by
  induction l with
  | nil => rfl
  | cons e rest ih =>
      obtain ⟨q, c⟩ := e
      by_cases h : q = p
      · subst h
        simpa using ih
      · simp [List.filter_cons, h, alistGet, ih]

theorem alistGet_filterOut_ne {α : Type} (l : List (String × α)) (p q : String)
    (h : q ≠ p) : alistGet q (l.filter (fun e => e.1 != p)) = alistGet q l := by
  induction l with
  | nil => rfl
  | cons e rest ih =>
      obtain ⟨k, c⟩ := e
      by_cases hk : k = p
      · subst hk
        simp [List.filter_cons, alistGet, Ne.symm h, ih]
      · by_cases hq : k = q
        · subst hq
          simp [List.filter_cons, hk, alistGet]
        · simp [List.filter_cons, hk, alistGet, hq, ih]

theorem find?_of_alistGet {α : Type} (l : List (String × α)) (p : String) (v : α)
    (h : alistGet p l = some v) : l.find? (fun e => e.1 == p) = some (p, v) := by
  induction l with
  | nil => simp [alistGet] at h
  | cons e rest ih =>
      obtain ⟨q, c⟩ := e
      by_cases hq : q = p
      · subst hq
        simp only [alistGet, if_true, eq_self_iff_true] at h
        rw [List.find?_cons_of_pos _ (by simp)]
        simpa using h
      · simp only [alistGet, hq, if_false] at h
        rw [List.find?_cons_of_neg _ (by simp [hq])]
        exact ih h

theorem globList_nodup (fs : DirFS) (dir : String)
    (h : (fs.map (fun e => e.1)).Nodup) : (globList fs dir).Nodup := by
  unfold globList
  exact h.sublist ((List.filter_sublist fs).map (fun e => e.1))

theorem cleanGo_err (d : String) (es2 : List String) :
    ∀ (es1 : List String) (fs : DirFS),
    (∀ p ∈ es1, alistGet p fs = some false) → es1.Nodup → d ∉ es1 →
    alistGet d fs = some true →
    ∃ fsA, cleanGo (es1 ++ d :: es2) fs = Except.error (d, fsA)
      ∧ (∀ p ∈ es1, alistGet p fsA = none)
      ∧ (∀ q, q ∉ es1 → alistGet q fsA = alistGet q fs) := by
  intro es1
  induction es1 with
  | nil =>
      intro fs _ _ _ hd
      refine ⟨fs, ?_, by simp, fun q _ => rfl⟩
      simp only [List.nil_append, cleanGo, unlinkAt, find?_of_alistGet fs d true hd]
      rfl
  | cons p es1' ih =>
      intro fs hfiles hnd hdni hd
      have hp : alistGet p fs = some false := hfiles p (List.mem_cons_self p es1')
      have hstep : unlinkAt fs p = some (fs.filter (fun e2 => e2.1 != p)) := by
        simp [unlinkAt, find?_of_alistGet fs p false hp]
      have hpes1 : p ∉ es1' := (List.nodup_cons.mp hnd).1
      have hnd' : es1'.Nodup := (List.nodup_cons.mp hnd).2
      have hdne : d ≠ p := by
        intro hh
        exact hdni (hh ▸ List.mem_cons_self p es1')
      obtain ⟨fsA, hrun, hgone, hrest⟩ :=
        ih (fs.filter (fun e2 => e2.1 != p))
          (fun q hq => by
            rw [alistGet_filterOut_ne fs p q (fun hh => hpes1 (hh ▸ hq))]
            exact hfiles q (List.mem_cons_of_mem _ hq))
          hnd' (fun hq => hdni (List.mem_cons_of_mem _ hq))
          (by rw [alistGet_filterOut_ne fs p d hdne]; exact hd)
      refine ⟨fsA, ?_, ?_, ?_⟩
      · simpa [cleanGo, hstep] using hrun
      · intro q hq
        rcases List.mem_cons.mp hq with rfl | hq'
        · rw [hrest q hpes1]
          exact alistGet_filterOut_self fs q
        · exact hgone q hq'
      · intro q hq
        have hqp : q ≠ p := fun hh => hq (hh ▸ List.mem_cons_self p es1')
        have hqe : q ∉ es1' := fun hh => hq (List.mem_cons_of_mem _ hh)
        rw [hrest q hqe]
        exact alistGet_filterOut_ne fs p q hqp

/-- C10: `clean_tmp_dir` unlinks the glob entries in order; when an entry
fails to unlink (here: it is a subdirectory), the error propagates with no
later entry removed, while the entries unlinked before the failure stay
removed. -/
theorem clean_tmp_dir_spec (fs : DirFS) (dir : String) (es1 es2 : List String)
    (d : String)
    (hsplit : globList fs dir = es1 ++ d :: es2)
    (hnodup : (fs.map (fun e => e.1)).Nodup)
    (hfiles : ∀ p ∈ es1, alistGet p fs = some false)
    (hdir : alistGet d fs = some true) :
    ∃ fsA, clean_tmp_dir fs dir = Except.error (d, fsA)
      ∧ (∀ p ∈ es1, alistGet p fsA = none)
      ∧ (∀ q, q ∉ es1 → alistGet q fsA = alistGet q fs) := by
  have hnd : (es1 ++ d :: es2).Nodup := by
    rw [← hsplit]
    exact globList_nodup fs dir hnodup
  have hnd1 : es1.Nodup := hnd.of_append_left
  have hdni : d ∉ es1 := by
    intro hh
    have := (List.nodup_append.mp hnd).2.2
    exact this hh (List.mem_cons_self d es2)
  rw [clean_tmp_dir, hsplit]
  exact cleanGo_err d es2 es1 fs hfiles hnd1 hdni hdir

/-- C10 witness: in a directory listing file, subdirectory, file (in that
order), cleanup removes the first file, stops at the subdirectory with the
error propagating, and leaves the later file in place. -/
theorem clean_tmp_dir_spec_witness :
    ∃ fsA, clean_tmp_dir fsC "/t" = Except.error ("/t/b", fsA)
      ∧ alistGet "/t/a" fsA = none
      ∧ alistGet "/t/c" fsA = alistGet "/t/c" fsC := by
  obtain ⟨fsA, h1, h2, h3⟩ :=
    clean_tmp_dir_spec fsC "/t" ["/t/a"] ["/t/c"] "/t/b" (by decide) (by decide)
      (by decide) (by decide)
  exact ⟨fsA, h1, h2 "/t/a" (by decide), h3 "/t/c" (by decide)⟩

/-! ## Claim theorems: the replace sequence never drops both copies -/

/-- C2: during every replace sequence for a stale slave image, at no point
does the slave lack both the old and the new copy under a discoverable
name.  The old image's data survives (under the original or backup name)
the rename, create and upload states — it is renamed, never deleted — and
its deletion is the final step, which succeeds only after the upload, at
which point the uploaded new copy carries the original name.  Since a
failing step truncates the sequence at one of these states, the invariant
holds for every execution of the sequence. -/
theorem replace_sequence_invariant (hash : List Nat → String) (image : ImageRec)
    (bytes : List Nat) (s : Store) (old : StoreImage)
    (hold : old ∈ s.images)
    (hfresh : ∀ img ∈ s.images, img.irec.id ≠ genId s.counter) :
    holdsContentOf s old
    ∧ holdsContentOf (replaceS1 s old.irec.id image.name) old
    ∧ holdsContentOf (replaceS2 image (replaceS1 s old.irec.id image.name)).2 old
    ∧ holdsContentOf
        (replaceS3 hash image bytes (replaceS1 s old.irec.id image.name)) old
    ∧ holdsNewCopy (replaceS3 hash image bytes (replaceS1 s old.irec.id image.name))
        image.name bytes
    ∧ ∃ s4, Store.deleteImage
          (replaceS3 hash image bytes (replaceS1 s old.irec.id image.name))
          old.irec.id = some s4
        ∧ holdsNewCopy s4 image.name bytes := by
  have hfold : old.irec.id ≠ genId s.counter := hfresh old hold
  -- the renamed old image
  set oldR : StoreImage := { old with irec := { old.irec with name := backupName image.name } }
    with holdR
  have hmemR : oldR ∈ (replaceS1 s old.irec.id image.name).images := by
    have hm := List.mem_map_of_mem
      (fun img => if img.irec.id == old.irec.id then
          { img with irec := { img.irec with name := backupName image.name } }
        else img) hold
    simpa [Store.renameImage, replaceS1, backupName] using hm
  have hR : holdsContentOf (replaceS1 s old.irec.id image.name) old :=
    ⟨oldR, hmemR, rfl, rfl⟩
  -- the created image
  have hcnt1 : (replaceS1 s old.irec.id image.name).counter = s.counter := rfl
  have hmemR2 : oldR ∈ (replaceS2 image (replaceS1 s old.irec.id image.name)).2.images := by
    simp only [replaceS2, Store.createImage]
    exact List.mem_append_left _ hmemR
  have hnew : newImage (genId s.counter) (create_payload image)
      ∈ (replaceS2 image (replaceS1 s old.irec.id image.name)).2.images := by
    simp only [replaceS2, Store.createImage]
    exact List.mem_append_right _ (by simp [hcnt1])
  -- after upload
  have hidR : oldR.irec.id = old.irec.id := rfl
  have hcnt2 : (replaceS2 image (replaceS1 s old.irec.id image.name)).1.irec.id
      = genId s.counter := rfl
  have hmemR3 : oldR ∈
      (replaceS3 hash image bytes (replaceS1 s old.irec.id image.name)).images := by
    simp only [replaceS3, Store.uploadImage]
    refine List.mem_map.mpr ⟨oldR, hmemR2, ?_⟩
    have hcond : (oldR.irec.id ==
        (replaceS2 image (replaceS1 s old.irec.id image.name)).1.irec.id) = false := by
      rw [hcnt2, hidR]
      simp only [beq_eq_false_iff_ne, ne_eq]
      exact hfold
    simp [hcond]
  have hnewUp : uploadedImage hash (genId s.counter) (create_payload image) bytes
      ∈ (replaceS3 hash image bytes (replaceS1 s old.irec.id image.name)).images := by
    simp only [replaceS3, Store.uploadImage]
    refine List.mem_map.mpr ⟨newImage (genId s.counter) (create_payload image), hnew, ?_⟩
    rw [hcnt2]
    simp [newImage, uploadedImage]
  have hN : holdsNewCopy
      (replaceS3 hash image bytes (replaceS1 s old.irec.id image.name))
      image.name bytes :=
    ⟨uploadedImage hash (genId s.counter) (create_payload image) bytes, hnewUp,
      rfl, rfl, rfl⟩
  refine ⟨⟨old, hold, rfl, rfl⟩, hR, ⟨oldR, hmemR2, rfl, rfl⟩, ⟨oldR, hmemR3, rfl, rfl⟩,
    hN, ?_⟩
  have hfind : ∃ y, (replaceS3 hash image bytes
      (replaceS1 s old.irec.id image.name)).findById old.irec.id = some y := by
    rw [← Option.isSome_iff_exists]
    apply List.find?_isSome.mpr
    exact ⟨oldR, hmemR3, by simp [hidR]⟩
  obtain ⟨y, hy⟩ := hfind
  refine ⟨⟨((replaceS3 hash image bytes (replaceS1 s old.irec.id image.name)).images.filter
      (fun img => img.irec.id != old.irec.id)),
    (replaceS3 hash image bytes (replaceS1 s old.irec.id image.name)).counter⟩,
    by simp [Store.deleteImage, hy], ?_⟩
  refine ⟨uploadedImage hash (genId s.counter) (create_payload image) bytes, ?_,
    rfl, rfl, rfl⟩
  simp only [List.mem_filter]
  refine ⟨hnewUp, ?_⟩
  simp only [uploadedImage, bne_iff_ne, ne_eq]
  exact fun hh => hfold hh.symm

/-- C2 witness: a concrete replace sequence on a one-image slave keeps the
old data through the rename and holds the uploaded new copy after the
upload. -/
theorem replace_sequence_invariant_witness :
    holdsContentOf (replaceS1 slaveC2 oldC2.irec.id mC2.name) oldC2
    ∧ holdsNewCopy
        (replaceS3 hash0 mC2 [7] (replaceS1 slaveC2 oldC2.irec.id mC2.name))
        mC2.name [7] :=
  ⟨(replace_sequence_invariant hash0 mC2 [7] slaveC2 oldC2 (by decide)
      (by decide)).2.1,
   (replace_sequence_invariant hash0 mC2 [7] slaveC2 oldC2 (by decide)
      (by decide)).2.2.2.2.1⟩

/-! ## Claim theorems: create passes only transferable metadata -/

/-- The error handler only ever appends the name-as-id delete action. -/
theorem handleErr_acts_sup (rm : String → String → Bool) (image : ImageRec)
    (s : Store) (fs : FS) (acts : List Action) (logs : List String) (a : Action)
    (h : a ∈ (handleErr rm image s fs acts logs).acts) :
    a ∈ acts ∨ a = Action.delete image.name := by
  unfold handleErr at h
  by_cases hc : (alistGet image.name
      (get_images_dict rm (s.images.map (fun i => i.irec)) [] none)).isSome
  · simp only [hc, if_true] at h
    cases hd : Store.deleteImage s image.name with
    | some s' =>
        rw [hd] at h
        simp only [List.mem_append, List.mem_singleton] at h
        exact h
    | none =>
        rw [hd] at h
        exact Or.inl h
  · simp only [Bool.not_eq_true] at hc
    simp only [hc, Bool.false_eq_true, if_false] at h
    exact Or.inl h

/-- Any create action of the replace sequence carries the master's
payload. -/
theorem syncReplace_create_mem (hash : List Nat → String)
    (rm : String → String → Bool) (master : Store) (io : String → Option Nat)
    (orc : String → RStep → Bool) (path : String) (image srec : ImageRec)
    (s : Store) (fs : FS) (p : CreatePayload)
    (h : Action.create p ∈ (syncReplace hash rm master io orc path image srec s fs).acts) :
    p = create_payload image := by
  simp only [syncReplace] at h
  split at h
  · rcases handleErr_acts_sup _ _ _ _ _ _ _ h with hm | hm <;> simp at hm
  · split at h
    · rcases handleErr_acts_sup _ _ _ _ _ _ _ h with hm | hm <;> simp at hm
    · split at h
      · rcases handleErr_acts_sup _ _ _ _ _ _ _ h with hm | hm <;> simp at hm
        exact hm
      · split at h
        · rcases handleErr_acts_sup _ _ _ _ _ _ _ h with hm | hm <;> simp at hm
          exact hm
        · split at h
          · simp at h
            exact h
          · rcases handleErr_acts_sup _ _ _ _ _ _ _ h with hm | hm <;> simp at hm
            exact hm

/-- Any create action of one image's processing carries the master's
payload. -/
theorem syncOneImage_create_mem (hash : List Nat → String)
    (rm : String → String → Bool) (master : Store) (io : String → Option Nat)
    (orc : String → RStep → Bool) (path : String)
    (dict : List (String × ImageRec)) (image : ImageRec) (s : Store) (fs : FS)
    (p : CreatePayload)
    (h : Action.create p
        ∈ (syncOneImage hash rm master io orc path dict image s fs).acts) :
    p = create_payload image := by
  simp only [syncOneImage] at h
  split at h
  · split at h
    · exact syncReplace_create_mem _ _ _ _ _ _ _ _ _ _ _ h
    · simp at h
  · simp at h
    exact h

/-- Any create action of one slave's reconciliation loop carries the
payload of one of the processed master images. -/
theorem syncLoop_create_mem (hash : List Nat → String)
    (rm : String → String → Bool) (master : Store) (io : String → Option Nat)
    (orc : String → RStep → Bool) (path : String)
    (dict : List (String × ImageRec)) :
    ∀ (vals : List ImageRec) (s : Store) (fs : FS) (p : CreatePayload),
    Action.create p ∈ (syncLoop hash rm master io orc path dict vals s fs).acts →
    ∃ m ∈ vals, p = create_payload m := by
  intro vals
  induction vals with
  | nil =>
      intro s fs p h
      simp [syncLoop] at h
  | cons image rest ih =>
      intro s fs p h
      simp only [syncLoop] at h
      split at h
      · exact ⟨image, List.mem_cons_self _ _,
          syncOneImage_create_mem _ _ _ _ _ _ _ _ _ _ _ h⟩
      · simp only [List.mem_append] at h
        rcases h with h | h
        · exact ⟨image, List.mem_cons_self _ _,
            syncOneImage_create_mem _ _ _ _ _ _ _ _ _ _ _ h⟩
        · obtain ⟨m, hm, hp⟩ := ih _ _ _ h
          exact ⟨m, List.mem_cons_of_mem _ hm, hp⟩

/-- Any create action of one slave's reconciliation carries a processed
master payload. -/
theorem syncSlave_create_mem (hash : List Nat → String)
    (rm : String → String → Bool) (master : Store) (io : String → Option Nat)
    (orc : String → RStep → Bool) (path : String) (N : List String)
    (P : Option String) (vals : List ImageRec) (s : Store) (fs : FS)
    (p : CreatePayload)
    (h : Action.create p
        ∈ (syncSlave hash rm master io orc path N P vals s fs).acts) :
    ∃ m ∈ vals, p = create_payload m := by
  unfold syncSlave at h
  exact syncLoop_create_mem _ _ _ _ _ _ _ _ _ _ _ h

/-- Any create action of a whole run carries a master payload. -/
theorem syncSlaves_create_mem (hash : List Nat → String)
    (rm : String → String → Bool) (master : Store) (io : String → Option Nat)
    (orc : Nat → String → RStep → Bool) (path : String) (N : List String)
    (P : Option String) (vals : List ImageRec) :
    ∀ (slaves : List Store) (idx : Nat) (fs : FS) (acts : List Action)
      (p : CreatePayload),
    acts ∈ (syncSlaves hash rm master io orc path N P vals idx slaves fs).acts →
    Action.create p ∈ acts →
    ∃ m ∈ vals, p = create_payload m := by
  intro slaves
  induction slaves with
  | nil =>
      intro idx fs acts p ha _
      simp [syncSlaves] at ha
  | cons s rest ih =>
      intro idx fs acts p ha hp
      simp only [syncSlaves] at ha
      split at ha
      · simp only [List.mem_singleton] at ha
        subst ha
        exact syncSlave_create_mem _ _ _ _ _ _ _ _ _ _ _ _ hp
      · simp only [List.mem_cons] at ha
        rcases ha with ha | ha
        · subst ha
          exact syncSlave_create_mem _ _ _ _ _ _ _ _ _ _ _ _ hp
        · exact ih _ _ _ _ ha hp

/-- C8: every image created on a slave (create path or replace sequence)
is created with exactly the transferable metadata payload of a processed
master image — name, tags, container_format, min_ram, visibility,
min_disk, disk_format, protected — with the master's name; the master's
identifier and checksum are never part of the payload (changing them
changes nothing about the create call), even though the full master
record is supplied to `create_image`. -/
theorem create_payload_only_metadata :
    (∀ (m : ImageRec) (i c : String),
        create_payload { m with id := i, checksum := c } = create_payload m)
    ∧ (∀ m : ImageRec, (create_payload m).name = m.name)
    ∧ ∀ (hash : List Nat → String) (rm : String → String → Bool) (master : Store)
        (slaves : List Store) (N : List String) (P : Option String) (path : String)
        (io : String → Option Nat) (orc : Nat → String → RStep → Bool) (fs : FS)
        (acts : List Action) (p : CreatePayload),
        acts ∈ (sync_images hash rm master slaves N P path io orc fs).acts →
        Action.create p ∈ acts →
        ∃ m ∈ dvalues (get_images_dict rm (master.images.map (fun i => i.irec)) N P),
          p = create_payload m ∧ p.name = m.name := by
  refine ⟨fun _ _ _ => rfl, fun _ => rfl, ?_⟩
  intro hash rm master slaves N P path io orc fs acts p ha hp
  obtain ⟨m, hm, hpm⟩ :=
    syncSlaves_create_mem hash rm master io orc path N P _ slaves 0 fs acts p ha hp
  exact ⟨m, hm, hpm, by rw [hpm]; rfl⟩

/-! ## Claim theorems: error swallowing and cache-poisoned idempotence -/

/-- C1: the code contradicts the claimed rollback contract.  At this
concrete input the replace sequence for master image "a" fails at the
create step (after the backup rename), the re-queried catalog holds no
image under the original name, and the `raise` — nested inside the
`if image['name'] in slave.get_images_dict()` block — is never reached:
the exception is swallowed, no exception escapes the run, the next master
image "b" IS attempted against the same slave (its create action is
performed), and the backup-named orphan of "a" is left behind. -/
theorem sync_swallow_continues :
    runSwallow.raised = false
    ∧ Action.create (create_payload mImgB.irec) ∈ runSwallow.acts.headD []
    ∧ runSwallow.logs = ["a"]
    ∧ (∃ st ∈ runSwallow.slaves, ∃ img ∈ st.images,
        img.irec.name = backupName "a") := by
  decide

/-- C7 counterexample: reconcile twice with an unchanged master and a
successful first run, starting from a scratch cache holding a wrong-content
file whose length equals the master-reported size.  The first run raises
nothing, yet the second run performs create/rename/upload/delete actions
(the poisoned bytes were uploaded, so the slave's checksum differs). -/
theorem sync_twice_poisoned_cache :
    runPoison1.raised = false
    ∧ runPoison2.acts.all (fun l => l.isEmpty) = false
    ∧ Action.create (create_payload mImgX.irec) ∈ runPoison2.acts.headD [] := by
  decide

/-! ## Helper lemmas for the idempotence development -/

theorem genId_inj (m n : Nat) (h : genId m = genId n) : m = n := by
  have hd : (genId m).data = (genId n).data := by rw [h]
  simp only [genId] at hd
  have hl := congrArg List.length hd
  simpa using hl

theorem pathKey_inj (dir a b : String) (h : dir ++ "/" ++ a = dir ++ "/" ++ b) :
    a = b := by
  have hd := congrArg String.data h
  simp only [String.data_append] at hd
  exact String.ext (List.append_cancel_left hd)

theorem fsGet_fsSet_ne (fs : FS) (p q : String) (c : List Nat) (h : q ≠ p) :
    fsGet (fsSet fs p c) q = fsGet fs q := by
  simp only [fsSet, fsGet, alistGet, Ne.symm h, if_false]
  exact alistGet_filterOut_ne fs p q h

theorem find_id_eq_of_mem (l : List StoreImage) (x : StoreImage)
    (hnd : (l.map (fun i => i.irec.id)).Nodup) (hx : x ∈ l) :
    List.find? (fun img => img.irec.id == x.irec.id) l = some x := by
  induction l with
  | nil => simp at hx
  | cons y rest ih =>
      rw [List.map_cons] at hnd
      have hh := List.nodup_cons.mp hnd
      rcases List.mem_cons.mp hx with rfl | hx'
      · exact List.find?_cons_of_pos _ (by simp)
      · have hyx : y.irec.id ≠ x.irec.id := by
          intro he
          exact hh.1 (he ▸ List.mem_map_of_mem (fun i => i.irec.id) hx')
        rw [List.find?_cons_of_neg _ (by simp [hyx])]
        exact ih hh.2 hx'

theorem findById_eq (s : Store) (x : StoreImage)
    (hnd : (s.images.map (fun i => i.irec.id)).Nodup) (hx : x ∈ s.images) :
    Store.findById s x.irec.id = some x :=
  find_id_eq_of_mem s.images x hnd hx

theorem dataOf_eq (s : Store) (i : String) (x : StoreImage)
    (h : Store.findById s i = some x) : Store.dataOf s i = x.content := by
  simp [Store.dataOf, h]

theorem reportedSize_eq (s : Store) (i : String) (x : StoreImage)
    (h : Store.findById s i = some x) : Store.reportedSize s i = x.irec.size := by
  simp [Store.reportedSize, h]

theorem filter_name_nil (l : List StoreImage) (n : String)
    (h : ∀ a ∈ l, a.irec.name ≠ n) :
    l.filter (fun i => i.irec.name == n) = [] := by
  rw [List.filter_eq_nil_iff]
  intro a ha
  simp [h a ha]

theorem filter_name_single (l : List StoreImage) (x : StoreImage) (n : String)
    (hnd : (l.map (fun i => i.irec.name)).Nodup) (hx : x ∈ l)
    (hn : x.irec.name = n) :
    l.filter (fun i => i.irec.name == n) = [x] := by
  induction l with
  | nil => simp at hx
  | cons y rest ih =>
      rw [List.map_cons] at hnd
      have hh := List.nodup_cons.mp hnd
      rcases List.mem_cons.mp hx with rfl | hx'
      · rw [List.filter_cons_of_pos (by simp [hn])]
        rw [filter_name_nil rest n ?_]
        intro a ha he
        exact hh.1 (by rw [← hn, ← he] at *; exact List.mem_map_of_mem _ ha)
      · have hy : y.irec.name ≠ n := by
          intro he
          apply hh.1
          rw [he, ← hn]
          exact List.mem_map_of_mem _ hx'
        rw [List.filter_cons_of_neg (by simp [hy])]
        exact ih hh.2 hx'

theorem lastRecNamed_map_nil (l : List StoreImage) (n : String)
    (h : ∀ a ∈ l, a.irec.name ≠ n) :
    lastRecNamed n (l.map (fun i => i.irec)) = none := by
  apply (lastRecNamed_eq_none _ _).mpr
  intro v hv
  obtain ⟨a, ha, rfl⟩ := List.mem_map.mp hv
  exact h a ha

theorem filter_name_nil_names (l : List StoreImage) (n : String)
    (h : l.filter (fun i => i.irec.name == n) = []) :
    ∀ a ∈ l, a.irec.name ≠ n := by
  intro a ha he
  have hm : a ∈ l.filter (fun i => i.irec.name == n) :=
    List.mem_filter.mpr ⟨ha, by simp [he]⟩
  rw [h] at hm
  simp at hm

theorem lastRecNamed_of_single (l : List StoreImage) (x : StoreImage) (n : String)
    (h : l.filter (fun i => i.irec.name == n) = [x]) :
    lastRecNamed n (l.map (fun i => i.irec)) = some x.irec := by
  induction l with
  | nil => simp at h
  | cons y rest ih =>
      by_cases hy : y.irec.name = n
      · rw [List.filter_cons_of_pos (by simp [hy])] at h
        have h1 : y = x := by
          have := congrArg (fun l => List.head? l) h
          simpa using this
        subst h1
        have h2 : rest.filter (fun i => i.irec.name == n) = [] := by
          have := congrArg (fun l => List.tail l) h
          simpa using this
        have hrest := filter_name_nil_names rest n h2
        simp only [List.map_cons, lastRecNamed, lastRecNamed_map_nil rest n hrest]
        simp [hy]
      · rw [List.filter_cons_of_neg (by simp [hy])] at h
        have hr := ih h
        simp only [List.map_cons, lastRecNamed, hr]

theorem stale_uploaded (hash : List Nat → String) (mi : StoreImage)
    (h1 : mi.irec.size = mi.content.length)
    (h2 : mi.irec.checksum = "" ∨ mi.irec.checksum = hash mi.content)
    (gi : String) :
    stale mi.irec (uploadedImage hash gi (create_payload mi.irec) mi.content).irec
      = false := by
  rcases h2 with h2 | h2
  · simp [stale, uploadedImage, h2, h1]
  · by_cases h3 : hash mi.content = ""
    · simp [stale, uploadedImage, h2, h3, h1]
    · simp [stale, uploadedImage, h2, h3, h1, bne_eq_false_iff_eq]

theorem dinsert_mem (k : String) (v : ImageRec) (d : List (String × ImageRec))
    (k' : String) (v' : ImageRec) (h : (k', v') ∈ dinsert k v d) :
    (k' = k ∧ v' = v) ∨ (k', v') ∈ d := by
  induction d with
  | nil =>
      simp only [dinsert, List.mem_singleton, Prod.mk.injEq] at h
      exact Or.inl h
  | cons e rest ih =>
      obtain ⟨q, w⟩ := e
      by_cases hq : q = k
      · subst hq
        simp only [dinsert, beq_self_eq_true, if_true] at h
        rcases List.mem_cons.mp h with he | he
        · simp only [Prod.mk.injEq] at he
          exact Or.inl he
        · exact Or.inr (List.mem_cons_of_mem _ he)
      · simp only [dinsert, beq_iff_eq, hq, if_false] at h
        rcases List.mem_cons.mp h with he | he
        · exact Or.inr (by rw [he]; exact List.mem_cons_self _ _)
        · rcases ih he with h1 | h1
          · exact Or.inl h1
          · exact Or.inr (List.mem_cons_of_mem _ h1)

theorem gid_mem (rm : String → String → Bool) (N : List String) (P : Option String) :
    ∀ (L : List ImageRec) (d : List (String × ImageRec)) (k : String) (v : ImageRec),
    (k, v) ∈ List.foldl (gidStep rm N P) d L →
    (k, v) ∈ d ∨ (v ∈ L ∧ v.name = k ∧ addImage rm N P k = true) := by
  intro L
  induction L with
  | nil =>
      intro d k v h
      exact Or.inl h
  | cons img rest ih =>
      intro d k v h
      simp only [List.foldl_cons] at h
      rcases ih _ _ _ h with h1 | h1
      · simp only [gidStep] at h1
        by_cases hsel : addImage rm N P img.name
        · rw [if_pos hsel] at h1
          rcases dinsert_mem _ _ _ _ _ h1 with ⟨rfl, rfl⟩ | h2
          · exact Or.inr ⟨List.mem_cons_self _ _, rfl, hsel⟩
          · exact Or.inl h2
        · rw [if_neg hsel] at h1
          exact Or.inl h1
      · exact Or.inr ⟨List.mem_cons_of_mem _ h1.1, h1.2⟩

theorem get_images_dict_mem (rm : String → String → Bool) (L : List ImageRec)
    (N : List String) (P : Option String) (k : String) (v : ImageRec)
    (h : (k, v) ∈ get_images_dict rm L N P) :
    v ∈ L ∧ v.name = k ∧ addImage rm N P k = true := by
  rcases gid_mem rm N P L [] k v h with h1 | h1
  · simp at h1
  · exact h1

theorem dinsert_keys_nodup (k : String) (v : ImageRec)
    (d : List (String × ImageRec)) (h : (d.map Prod.fst).Nodup) :
    ((dinsert k v d).map Prod.fst).Nodup := by
  induction d with
  | nil => simp [dinsert]
  | cons e rest ih =>
      obtain ⟨q, w⟩ := e
      rw [List.map_cons] at h
      have hh := List.nodup_cons.mp h
      by_cases hq : q = k
      · subst hq
        simp only [dinsert, beq_self_eq_true, if_true, List.map_cons]
        exact List.nodup_cons.mpr ⟨by simpa using hh.1, hh.2⟩
      · simp only [dinsert, beq_iff_eq, hq, if_false, List.map_cons]
        refine List.nodup_cons.mpr ⟨?_, ih hh.2⟩
        intro hq2
        obtain ⟨e2, he2, heq⟩ := List.mem_map.mp hq2
        obtain ⟨k2, v2⟩ := e2
        rcases dinsert_mem k v rest k2 v2 he2 with ⟨rfl, rfl⟩ | h2
        · exact hq heq.symm
        · exact hh.1 (List.mem_map.mpr ⟨(k2, v2), h2, heq⟩)

theorem gid_keys_nodup (rm : String → String → Bool) (N : List String)
    (P : Option String) :
    ∀ (L : List ImageRec) (d : List (String × ImageRec)),
    (d.map Prod.fst).Nodup →
    ((List.foldl (gidStep rm N P) d L).map Prod.fst).Nodup := by
  intro L
  induction L with
  | nil => intro d h; exact h
  | cons img rest ih =>
      intro d h
      simp only [List.foldl_cons]
      apply ih
      simp only [gidStep]
      by_cases hsel : addImage rm N P img.name
      · rw [if_pos hsel]
        exact dinsert_keys_nodup _ _ _ h
      · rw [if_neg hsel]
        exact h

theorem get_images_dict_keys_nodup (rm : String → String → Bool)
    (L : List ImageRec) (N : List String) (P : Option String) :
    ((get_images_dict rm L N P).map Prod.fst).Nodup :=
  gid_keys_nodup rm N P L [] (by simp)

theorem dvalues_mem (d : List (String × ImageRec)) (v : ImageRec)
    (h : v ∈ dvalues d) : ∃ k, (k, v) ∈ d := by
  obtain ⟨e, he, heq⟩ := List.mem_map.mp h
  obtain ⟨k, v'⟩ := e
  cases heq
  exact ⟨k, he⟩

theorem dvalues_props (rm : String → String → Bool) (L : List ImageRec)
    (N : List String) (P : Option String) (m : ImageRec)
    (h : m ∈ dvalues (get_images_dict rm L N P)) :
    m ∈ L ∧ addImage rm N P m.name = true := by
  obtain ⟨k, hk⟩ := dvalues_mem _ _ h
  have h3 := get_images_dict_mem rm L N P k m hk
  refine ⟨h3.1, ?_⟩
  rw [h3.2.1]
  exact h3.2.2

theorem dvalues_names_nodup (rm : String → String → Bool) (L : List ImageRec)
    (N : List String) (P : Option String) :
    ((dvalues (get_images_dict rm L N P)).map (fun m => m.name)).Nodup := by
  have hk := get_images_dict_keys_nodup rm L N P
  have he : (dvalues (get_images_dict rm L N P)).map (fun m => m.name)
      = (get_images_dict rm L N P).map Prod.fst := by
    rw [dvalues, List.map_map]
    apply List.map_congr_left
    intro e he
    obtain ⟨k, v⟩ := e
    have h3 := get_images_dict_mem rm L N P k v he
    simpa using h3.2.1
  rw [he]
  exact hk

theorem download_run1 (hash : List Nat → String) (master : Store) (path : String)
    (fs : FS) (mi : StoreImage)
    (hMwf : masterWf hash master) (hco : fsCoherent master path fs)
    (hmi : mi ∈ master.images) :
    (download_image master fs path mi.irec.id none).path = path ++ "/" ++ mi.irec.id
    ∧ fsGet (download_image master fs path mi.irec.id none).fs
        (path ++ "/" ++ mi.irec.id) = some mi.content
    ∧ fsCoherent master path (download_image master fs path mi.irec.id none).fs := by
  obtain ⟨hwf, hnd⟩ := hMwf
  have hfind : Store.findById master mi.irec.id = some mi := findById_eq master mi hnd hmi
  have hsz : Store.reportedSize master mi.irec.id = mi.irec.size :=
    reportedSize_eq _ _ _ hfind
  have hlen : Store.reportedSize master mi.irec.id = mi.content.length := by
    rw [hsz]
    exact (hwf mi hmi).1
  have hdata : Store.dataOf master mi.irec.id = mi.content := dataOf_eq _ _ _ hfind
  cases hget : fsGet fs (path ++ "/" ++ mi.irec.id) with
  | some c =>
      have hc : c = mi.content := hco mi hmi c hget
      have hb : (Store.reportedSize master mi.irec.id != c.length) = false := by
        rw [bne_eq_false_iff_eq, hc, hlen]
      refine ⟨?_, ?_, ?_⟩
      · simp [download_image, hget, hb]
      · simp only [download_image, hget, hb, Bool.false_eq_true, if_false]
        rw [hc]
      · simp only [download_image, hget, hb, Bool.false_eq_true, if_false]
        exact hco
  | none =>
      refine ⟨?_, ?_, ?_⟩
      · simp [download_image, hget, streamTo]
      · simp only [download_image, hget, streamTo]
        rw [hdata]
        exact fsGet_fsSet_self _ _ _
      · simp only [download_image, hget, streamTo]
        intro mj hmj c' hc'
        by_cases hpk : path ++ "/" ++ mj.irec.id = path ++ "/" ++ mi.irec.id
        · have hidj : mj.irec.id = mi.irec.id := pathKey_inj _ _ _ hpk
          have hji : mj = mi := List.inj_on_of_nodup_map hnd hmj hmi hidj
          rw [hpk, hdata, fsGet_fsSet_self] at hc'
          rw [hji]
          exact (Option.some.inj hc').symm
        · rw [fsGet_fsSet_ne _ _ _ _ hpk] at hc'
          exact hco mj hmj c' hc'

theorem map_upload_id (l : List StoreImage) (hash : List Nat → String)
    (i : String) (bytes : List Nat) (h : ∀ img ∈ l, img.irec.id ≠ i) :
    l.map (fun img => if img.irec.id == i then
      { irec := { img.irec with size := bytes.length, checksum := hash bytes },
        content := bytes, uploaded := true } else img) = l := by
  have hc : ∀ img ∈ l, (if img.irec.id == i then
      ({ irec := { img.irec with size := bytes.length, checksum := hash bytes },
         content := bytes, uploaded := true } : StoreImage) else img) = img := by
    intro img hi
    simp [h img hi]
  simpa using List.map_congr_left hc

theorem create_upload_images (s : Store) (p : CreatePayload)
    (hash : List Nat → String) (bytes : List Nat)
    (hfr : ∀ img ∈ s.images, img.irec.id ≠ genId s.counter) :
    Store.uploadImage (Store.createImage s p).2 hash
        (Store.createImage s p).1.irec.id bytes
      = ⟨s.images ++ [uploadedImage hash (genId s.counter) p bytes],
         s.counter + 1⟩ := by
  simp only [Store.createImage, Store.uploadImage, List.map_append]
  congr 1
  rw [map_upload_id s.images hash _ bytes (fun img hi => by
    simp only [newImage]
    exact hfr img hi)]
  congr 1
  simp [newImage, uploadedImage]

theorem filter_id_map_ren (l : List StoreImage) (i n : String) :
    (l.map (fun img => if img.irec.id == i then
        { img with irec := { img.irec with name := n } } else img)).filter
      (fun img => img.irec.id != i)
    = l.filter (fun img => img.irec.id != i) := by
  induction l with
  | nil => rfl
  | cons y rest ih =>
      by_cases hy : y.irec.id = i
      · have hby : (y.irec.id == i) = true := by simp [hy]
        simp only [List.map_cons, hby, if_true]
        rw [List.filter_cons_of_neg (by simp [hy]),
          List.filter_cons_of_neg (by simp [hy])]
        exact ih
      · have hby : (y.irec.id == i) = false := by simp [hy]
        simp only [List.map_cons, hby, Bool.false_eq_true, if_false]
        rw [List.filter_cons_of_pos (by simp [hy]),
          List.filter_cons_of_pos (by simp [hy])]
        rw [ih]

theorem replace_store_effect (hash : List Nat → String) (image srec : ImageRec)
    (s : Store) (old : StoreImage) (B : List Nat)
    (hold : old ∈ s.images) (hid : old.irec.id = srec.id)
    (hfr : ∀ img ∈ s.images, img.irec.id ≠ genId s.counter) :
    replaceS3 hash image B (replaceS1 s srec.id image.name)
      = ⟨(s.images.map (fun img => if img.irec.id == srec.id then
            { img with irec := { img.irec with name := backupName image.name } }
          else img))
          ++ [uploadedImage hash (genId s.counter) (create_payload image) B],
         s.counter + 1⟩
    ∧ Store.deleteImage
        (replaceS3 hash image B (replaceS1 s srec.id image.name)) srec.id
      = some ⟨s.images.filter (fun img => img.irec.id != srec.id)
          ++ [uploadedImage hash (genId s.counter) (create_payload image) B],
         s.counter + 1⟩ := by
  have hgi : old.irec.id ≠ genId s.counter := hfr old hold
  have hsg : srec.id ≠ genId s.counter := by
    rw [← hid]
    exact hgi
  have hs3 : replaceS3 hash image B (replaceS1 s srec.id image.name)
      = ⟨(s.images.map (fun img => if img.irec.id == srec.id then
            { img with irec := { img.irec with name := backupName image.name } }
          else img))
          ++ [uploadedImage hash (genId s.counter) (create_payload image) B],
         s.counter + 1⟩ := by
    simp only [replaceS3, replaceS2, Store.createImage, replaceS1,
      Store.renameImage, Store.uploadImage, List.map_append]
    congr 1
    rw [map_upload_id _ hash _ B (fun img hi => by
      obtain ⟨x, hx, rfl⟩ := List.mem_map.mp hi
      simp only [newImage]
      by_cases hxi : x.irec.id = srec.id
      · simp only [hxi, beq_self_eq_true, if_true]
        rw [← hxi] at hsg ⊢
        exact fun hh => hsg hh
      · have hbx : (x.irec.id == srec.id) = false := by simp [hxi]
        simp only [hbx, Bool.false_eq_true, if_false]
        exact hfr x hx)]
    congr 1
    simp [newImage, uploadedImage]
  refine ⟨hs3, ?_⟩
  rw [hs3]
  have hmemren : ({ old with irec := { old.irec with name := backupName image.name } }
      : StoreImage) ∈ s.images.map (fun img => if img.irec.id == srec.id then
        { img with irec := { img.irec with name := backupName image.name } }
      else img) := by
    refine List.mem_map.mpr ⟨old, hold, ?_⟩
    simp [hid]
  have hfind : (Store.findById
      ⟨(s.images.map (fun img => if img.irec.id == srec.id then
          { img with irec := { img.irec with name := backupName image.name } }
        else img))
        ++ [uploadedImage hash (genId s.counter) (create_payload image) B],
        s.counter + 1⟩ srec.id).isSome = true := by
    apply List.find?_isSome.mpr
    refine ⟨{ old with irec := { old.irec with name := backupName image.name } },
      List.mem_append_left _ hmemren, by simp [hid]⟩
  obtain ⟨y, hy⟩ := Option.isSome_iff_exists.mp hfind
  simp only [Store.deleteImage, hy]
  congr 1
  simp only [List.filter_append]
  rw [filter_id_map_ren]
  have hup : ((uploadedImage hash (genId s.counter) (create_payload image) B).irec.id
      != srec.id) = true := by
    simp only [uploadedImage, bne_iff_ne, ne_eq]
    exact fun hh => hsg hh.symm
  have hfl : List.filter (fun img => img.irec.id != srec.id)
      [uploadedImage hash (genId s.counter) (create_payload image) B]
      = [uploadedImage hash (genId s.counter) (create_payload image) B] := by
    rw [List.filter_eq_self]
    intro a ha
    simp only [List.mem_singleton] at ha
    subst ha
    exact hup
  rw [hfl]

theorem idFresh_mono (c : Nat) (i : String) (h : idFresh c i) : idFresh (c + 1) i :=
  fun k hk => h k (Nat.le_trans (Nat.le_succ c) hk)

theorem idFresh_genId_succ (c : Nat) : idFresh (c + 1) (genId c) := by
  intro k hk he
  have := genId_inj c k he
  omega

theorem filter_comm' {α : Type} (p q : α → Bool) (l : List α) :
    List.filter p (List.filter q l) = List.filter q (List.filter p l) := by
  rw [List.filter_filter, List.filter_filter]
  exact List.filter_congr (fun a _ => Bool.and_comm _ _)

theorem nodup_ids_append_gen (l : List StoreImage) (x : StoreImage)
    (hnd : (l.map (fun i => i.irec.id)).Nodup)
    (hx : ∀ img ∈ l, img.irec.id ≠ x.irec.id) :
    ((l ++ [x]).map (fun i => i.irec.id)).Nodup := by
  rw [List.map_append]
  refine List.nodup_append.mpr ⟨hnd, by simp, ?_⟩
  intro a ha ha2
  simp only [List.map_cons, List.map_nil, List.mem_singleton] at ha2
  obtain ⟨img, hi, rfl⟩ := List.mem_map.mp ha
  exact hx img hi ha2

theorem syncOneImage_skip_eq (hash : List Nat → String) (rm : String → String → Bool)
    (master : Store) (io : String → Option Nat) (orc : String → RStep → Bool)
    (path : String) (dict : List (String × ImageRec)) (image srec : ImageRec)
    (s : Store) (fs : FS)
    (hlk : alistGet image.name dict = some srec) (hst : stale image srec = false) :
    syncOneImage hash rm master io orc path dict image s fs
      = ⟨s, fs, [], false, []⟩ := by
  simp [syncOneImage, hlk, hst]

theorem syncReplace_success (hash : List Nat → String) (rm : String → String → Bool)
    (master : Store) (io : String → Option Nat) (path : String)
    (image srec : ImageRec) (s : Store) (fs : FS) (old : StoreImage)
    (hold : old ∈ s.images) (hid : old.irec.id = srec.id)
    (hfr : ∀ img ∈ s.images, img.irec.id ≠ genId s.counter) :
    syncReplace hash rm master io orc0 path image srec s fs
      = ⟨⟨s.images.filter (fun img => img.irec.id != srec.id)
            ++ [uploadedImage hash (genId s.counter) (create_payload image)
                ((fsGet (download_image master fs path image.id (io image.id)).fs
                  (download_image master fs path image.id (io image.id)).path).getD [])],
          s.counter + 1⟩,
         (download_image master fs path image.id (io image.id)).fs,
         [Action.download image.id, Action.rename srec.id (backupName image.name),
          Action.create (create_payload image),
          Action.upload (genId s.counter)
            (download_image master fs path image.id (io image.id)).path,
          Action.delete srec.id],
         false,
         dlLogs (download_image master fs path image.id (io image.id)) image.id⟩ := by
  have hnn : (Store.findById s srec.id).isNone = false := by
    have hsome : (Store.findById s srec.id).isSome = true :=
      List.find?_isSome.mpr ⟨old, hold, by simp [hid]⟩
    cases hh : Store.findById s srec.id with
    | some _ => rfl
    | none => rw [hh] at hsome; simp at hsome
  obtain ⟨hs3, hdel⟩ := replace_store_effect hash image srec s old
    ((fsGet (download_image master fs path image.id (io image.id)).fs
      (download_image master fs path image.id (io image.id)).path).getD [])
    hold hid hfr
  simp [syncReplace, orc0, hnn, hdel]
  rfl

theorem syncLoop_cons_eq (hash : List Nat → String) (rm : String → String → Bool)
    (master : Store) (io : String → Option Nat) (orc : String → RStep → Bool)
    (path : String) (dict : List (String × ImageRec)) (image : ImageRec)
    (rest : List ImageRec) (s : Store) (fs : FS) (S : Store) (F : FS)
    (A : List Action) (L : List String)
    (hone : syncOneImage hash rm master io orc path dict image s fs
      = ⟨S, F, A, false, L⟩) :
    syncLoop hash rm master io orc path dict (image :: rest) s fs
      = ⟨(syncLoop hash rm master io orc path dict rest S F).slave,
         (syncLoop hash rm master io orc path dict rest S F).fs,
         A ++ (syncLoop hash rm master io orc path dict rest S F).acts,
         (syncLoop hash rm master io orc path dict rest S F).raised,
         L ++ (syncLoop hash rm master io orc path dict rest S F).logs⟩ := by
  simp [syncLoop, hone]

theorem runPost_step (master : Store) (path : String) (mrec : ImageRec)
    (rest : List ImageRec) (s S : Store) (r2 : StepRes) (A : List Action)
    (L : List String)
    (h2 : runPost master path rest S r2)
    (hnm : mrec.name ∉ rest.map (fun m => m.name))
    (hhead : ∃ img, imagesNamed S mrec.name = [img] ∧ stale mrec img.irec = false)
    (hframe : ∀ q, q ∉ (mrec :: rest).map (fun m => m.name) →
        imagesNamed S q = imagesNamed s q) :
    runPost master path (mrec :: rest) s
      ⟨r2.slave, r2.fs, A ++ r2.acts, r2.raised, L ++ r2.logs⟩ := by
  obtain ⟨ir, iA, iF, iFr, iNd, iCo⟩ := h2
  refine ⟨ir, ?_, ?_, iFr, iNd, iCo⟩
  · intro m' hm'
    rcases List.mem_cons.mp hm' with rfl | hm'
    · obtain ⟨img, hI1, hI2⟩ := hhead
      refine ⟨img, ?_, hI2⟩
      show imagesNamed r2.slave m'.name = [img]
      rw [iF m'.name hnm]
      exact hI1
    · exact iA m' hm'
  · intro q hq
    have hq2 : q ∉ rest.map (fun m => m.name) := by
      intro he
      exact hq (by simp only [List.map_cons, List.mem_cons]; exact Or.inr he)
    show imagesNamed r2.slave q = imagesNamed s q
    rw [iF q hq2]
    exact hframe q hq

theorem syncLoop_run1 (hash : List Nat → String) (rm : String → String → Bool)
    (master : Store) (path : String) (N : List String) (P : Option String)
    (s₀ : Store)
    (hMwf : masterWf hash master)
    (hs0names : (s₀.images.map (fun i => i.irec.name)).Nodup) :
    ∀ (vals : List ImageRec) (s : Store) (fs : FS),
    (∀ m ∈ vals, ∃ mi ∈ master.images, mi.irec = m) →
    (∀ m ∈ vals, addImage rm N P m.name = true) →
    ((vals.map (fun m => m.name)).Nodup) →
    (∀ m ∈ vals, imagesNamed s m.name = imagesNamed s₀ m.name) →
    (∀ img ∈ s.images, idFresh s.counter img.irec.id) →
    ((s.images.map (fun i => i.irec.id)).Nodup) →
    fsCoherent master path fs →
    runPost master path vals s
      (syncLoop hash rm master io0 orc0 path
        (get_images_dict rm (s₀.images.map (fun i => i.irec)) N P) vals s fs) := by
  intro vals
  induction vals with
  | nil =>
      intro s fs _ _ _ _ hfr hnd hco
      exact ⟨rfl, by simp, fun q _ => rfl, hfr, hnd, hco⟩
  | cons m rest ih =>
      intro s fs hv1 hv2 hv3 hB hfr hnd hco
      obtain ⟨mi, hmi, hmirec⟩ := hv1 m (List.mem_cons_self _ _)
      subst hmirec
      have hsel : addImage rm N P mi.irec.name = true :=
        hv2 mi.irec (List.mem_cons_self _ _)
      have hnm : mi.irec.name ∉ rest.map (fun m => m.name) := by
        rw [List.map_cons] at hv3
        exact (List.nodup_cons.mp hv3).1
      have hv3' : (rest.map (fun m => m.name)).Nodup := by
        rw [List.map_cons] at hv3
        exact (List.nodup_cons.mp hv3).2
      have hv1' : ∀ m' ∈ rest, ∃ mi' ∈ master.images, mi'.irec = m' :=
        fun m' hm' => hv1 m' (List.mem_cons_of_mem _ hm')
      have hv2' : ∀ m' ∈ rest, addImage rm N P m'.name = true :=
        fun m' hm' => hv2 m' (List.mem_cons_of_mem _ hm')
      have hwfm := hMwf.1 mi hmi
      have hfr0 : ∀ img ∈ s.images, img.irec.id ≠ genId s.counter :=
        fun img hi => hfr img hi s.counter (Nat.le_refl _)
      have hio : io0 mi.irec.id = none := rfl
      have hdl := download_run1 hash master path fs mi hMwf hco hmi
      have hbytes : (fsGet (download_image master fs path mi.irec.id none).fs
          (download_image master fs path mi.irec.id none).path).getD []
          = mi.content := by
        rw [hdl.1, hdl.2.1]
        rfl
      have hlk := alistGet_get_images_dict rm
        (s₀.images.map (fun i => i.irec)) N P mi.irec.name
      rw [if_pos hsel] at hlk
      have hstup := stale_uploaded hash mi hwfm.1 hwfm.2 (genId s.counter)
      cases hcase : lastRecNamed mi.irec.name (s₀.images.map (fun i => i.irec)) with
      | none =>
          rw [hcase] at hlk
          have hs0nil : imagesNamed s₀ mi.irec.name = [] := by
            apply filter_name_nil
            intro a ha he
            exact ((lastRecNamed_eq_none _ _).mp hcase) a.irec
              (List.mem_map_of_mem _ ha) he
          have hsnil : imagesNamed s mi.irec.name = [] := by
            rw [hB mi.irec (List.mem_cons_self _ _), hs0nil]
          have hcu := create_upload_images s (create_payload mi.irec) hash
            mi.content hfr0
          have hone : syncOneImage hash rm master io0 orc0 path
              (get_images_dict rm (s₀.images.map (fun i => i.irec)) N P) mi.irec s fs
              = ⟨⟨s.images ++ [uploadedImage hash (genId s.counter)
                    (create_payload mi.irec) mi.content], s.counter + 1⟩,
                 (download_image master fs path mi.irec.id none).fs,
                 [Action.download mi.irec.id,
                  Action.create (create_payload mi.irec),
                  Action.upload (Store.createImage s (create_payload mi.irec)).1.irec.id
                    (download_image master fs path mi.irec.id none).path],
                 false,
                 dlLogs (download_image master fs path mi.irec.id none) mi.irec.id⟩ := by
            simp only [syncOneImage, hlk, hio, hbytes, hcu]
          rw [syncLoop_cons_eq hash rm master io0 orc0 path _ mi.irec rest s fs
            _ _ _ _ hone]
          have hB' : ∀ m' ∈ rest,
              imagesNamed ⟨s.images ++ [uploadedImage hash (genId s.counter)
                (create_payload mi.irec) mi.content], s.counter + 1⟩ m'.name
              = imagesNamed s₀ m'.name := by
            intro m' hm'
            have hq : mi.irec.name ≠ m'.name := by
              intro he
              exact hnm (he ▸ List.mem_map_of_mem _ hm')
            have heq : imagesNamed ⟨s.images ++ [uploadedImage hash (genId s.counter)
                (create_payload mi.irec) mi.content], s.counter + 1⟩ m'.name
                = imagesNamed s m'.name := by
              simp only [imagesNamed, List.filter_append]
              rw [List.filter_cons_of_neg (by
                simp only [uploadedImage, create_payload, beq_iff_eq]
                exact fun hh => hq hh)]
              simp [imagesNamed]
            rw [heq]
            exact hB m' (List.mem_cons_of_mem _ hm')
          have hfr' : ∀ img ∈ (⟨s.images ++ [uploadedImage hash (genId s.counter)
              (create_payload mi.irec) mi.content], s.counter + 1⟩ : Store).images,
              idFresh (s.counter + 1) img.irec.id := by
            intro img hi
            rcases List.mem_append.mp hi with hi | hi
            · exact idFresh_mono _ _ (hfr img hi)
            · simp only [List.mem_singleton] at hi
              subst hi
              exact idFresh_genId_succ s.counter
          have hnd' : ((s.images ++ [uploadedImage hash (genId s.counter)
              (create_payload mi.irec) mi.content]).map (fun i => i.irec.id)).Nodup := by
            apply nodup_ids_append_gen s.images _ hnd
            intro img hi
            simpa [uploadedImage] using hfr0 img hi
          have ihres := ih ⟨s.images ++ [uploadedImage hash (genId s.counter)
              (create_payload mi.irec) mi.content], s.counter + 1⟩
            (download_image master fs path mi.irec.id none).fs
            hv1' hv2' hv3' hB' hfr' hnd' hdl.2.2
          refine runPost_step master path mi.irec rest s _ _ _ _ ihres hnm ?_ ?_
          · refine ⟨uploadedImage hash (genId s.counter)
              (create_payload mi.irec) mi.content, ?_, hstup⟩
            simp only [imagesNamed, List.filter_append]
            rw [show List.filter (fun i => i.irec.name == mi.irec.name) s.images
                = [] from hsnil]
            rw [List.filter_cons_of_pos (by simp [uploadedImage, create_payload])]
            rfl
          · intro q hq
            have hq1 : q ≠ mi.irec.name := by
              intro he
              exact hq (by rw [he]; exact List.mem_cons_self _ _)
            simp only [imagesNamed, List.filter_append]
            rw [List.filter_cons_of_neg (by
              simp only [uploadedImage, create_payload, beq_iff_eq]
              exact fun hh => hq1 hh.symm)]
            simp [imagesNamed]
      | some srec =>
          rw [hcase] at hlk
          obtain ⟨hsrecmem, hsrecname⟩ := lastRecNamed_mem _ _ _ hcase
          obtain ⟨x₀, hx₀mem, hx₀rec⟩ := List.mem_map.mp hsrecmem
          have hx₀name : x₀.irec.name = mi.irec.name := by
            rw [hx₀rec]
            exact hsrecname
          have hs0single : imagesNamed s₀ mi.irec.name = [x₀] :=
            filter_name_single s₀.images x₀ mi.irec.name hs0names hx₀mem hx₀name
          have hBm : imagesNamed s mi.irec.name = [x₀] := by
            rw [hB mi.irec (List.mem_cons_self _ _), hs0single]
          have hx₀s : x₀ ∈ s.images := by
            have hmem : x₀ ∈ imagesNamed s mi.irec.name := by
              rw [hBm]
              exact List.mem_singleton.mpr rfl
            exact (List.mem_filter.mp hmem).1
          by_cases hst : stale mi.irec srec = true
          · have hid : x₀.irec.id = srec.id := by rw [hx₀rec]
            have hrepl := syncReplace_success hash rm master io0 path mi.irec srec
              s fs x₀ hx₀s hid hfr0
            rw [hio, hbytes] at hrepl
            have hone : syncOneImage hash rm master io0 orc0 path
                (get_images_dict rm (s₀.images.map (fun i => i.irec)) N P) mi.irec s fs
                = ⟨⟨s.images.filter (fun img => img.irec.id != srec.id)
                      ++ [uploadedImage hash (genId s.counter)
                          (create_payload mi.irec) mi.content], s.counter + 1⟩,
                   (download_image master fs path mi.irec.id none).fs,
                   [Action.download mi.irec.id,
                    Action.rename srec.id (backupName mi.irec.name),
                    Action.create (create_payload mi.irec),
                    Action.upload (genId s.counter)
                      (download_image master fs path mi.irec.id none).path,
                    Action.delete srec.id],
                   false,
                   dlLogs (download_image master fs path mi.irec.id none)
                     mi.irec.id⟩ := by
              rw [← hrepl]
              simp only [syncOneImage, hlk, hst, if_true]
            rw [syncLoop_cons_eq hash rm master io0 orc0 path _ mi.irec rest s fs
              _ _ _ _ hone]
            have hfilterN : List.filter (fun i => i.irec.name == mi.irec.name)
                (List.filter (fun img => img.irec.id != srec.id) s.images) = [] := by
              rw [filter_comm', show List.filter (fun i =>
                i.irec.name == mi.irec.name) s.images = [x₀] from hBm]
              rw [List.filter_cons_of_neg (by simp [hid])]
              rfl
            have hkeep : ∀ q, q ≠ mi.irec.name →
                List.filter (fun i => i.irec.name == q)
                  (List.filter (fun img => img.irec.id != srec.id) s.images)
                = List.filter (fun i => i.irec.name == q) s.images := by
              intro q hqn
              rw [filter_comm']
              rw [List.filter_eq_self.mpr ?_]
              intro a ha
              obtain ⟨has, haq⟩ := List.mem_filter.mp ha
              simp only [bne_iff_ne, ne_eq]
              intro he
              have hax : a = x₀ :=
                List.inj_on_of_nodup_map hnd has hx₀s (by rw [he, hid])
              apply hqn
              rw [← (by simpa using haq : a.irec.name = q), hax, hx₀name]
            have hB' : ∀ m' ∈ rest,
                imagesNamed ⟨s.images.filter (fun img => img.irec.id != srec.id)
                  ++ [uploadedImage hash (genId s.counter)
                      (create_payload mi.irec) mi.content], s.counter + 1⟩ m'.name
                = imagesNamed s₀ m'.name := by
              intro m' hm'
              have hq : mi.irec.name ≠ m'.name := by
                intro he
                exact hnm (he ▸ List.mem_map_of_mem _ hm')
              simp only [imagesNamed, List.filter_append]
              rw [List.filter_cons_of_neg (by
                simp only [uploadedImage, create_payload, beq_iff_eq]
                exact fun hh => hq hh)]
              rw [hkeep m'.name (fun he => hq he.symm)]
              have hBr := hB m' (List.mem_cons_of_mem _ hm')
              simp only [imagesNamed] at hBr
              rw [hBr]
              simp
            have hfr' : ∀ img ∈ (⟨s.images.filter
                (fun img => img.irec.id != srec.id)
                ++ [uploadedImage hash (genId s.counter)
                    (create_payload mi.irec) mi.content],
                s.counter + 1⟩ : Store).images,
                idFresh (s.counter + 1) img.irec.id := by
              intro img hi
              rcases List.mem_append.mp hi with hi | hi
              · exact idFresh_mono _ _ (hfr img (List.mem_filter.mp hi).1)
              · simp only [List.mem_singleton] at hi
                subst hi
                exact idFresh_genId_succ s.counter
            have hnd' : (((s.images.filter (fun img => img.irec.id != srec.id))
                ++ [uploadedImage hash (genId s.counter)
                    (create_payload mi.irec) mi.content]).map
                  (fun i => i.irec.id)).Nodup := by
              apply nodup_ids_append_gen _ _
                (hnd.sublist ((List.filter_sublist _).map _))
              intro img hi
              simpa [uploadedImage] using hfr0 img (List.mem_filter.mp hi).1
            have ihres := ih ⟨s.images.filter (fun img => img.irec.id != srec.id)
                ++ [uploadedImage hash (genId s.counter)
                    (create_payload mi.irec) mi.content], s.counter + 1⟩
              (download_image master fs path mi.irec.id none).fs
              hv1' hv2' hv3' hB' hfr' hnd' hdl.2.2
            refine runPost_step master path mi.irec rest s _ _ _ _ ihres hnm ?_ ?_
            · refine ⟨uploadedImage hash (genId s.counter)
                (create_payload mi.irec) mi.content, ?_, hstup⟩
              simp only [imagesNamed, List.filter_append]
              rw [hfilterN]
              rw [List.filter_cons_of_pos (by simp [uploadedImage, create_payload])]
              rfl
            · intro q hq
              have hq1 : q ≠ mi.irec.name := by
                intro he
                exact hq (by rw [he]; exact List.mem_cons_self _ _)
              simp only [imagesNamed, List.filter_append]
              rw [List.filter_cons_of_neg (by
                simp only [uploadedImage, create_payload, beq_iff_eq]
                exact fun hh => hq1 hh.symm)]
              rw [hkeep q hq1]
              simp [imagesNamed]
          · have hstf : stale mi.irec srec = false := by
              cases hs : stale mi.irec srec with
              | true => exact absurd hs hst
              | false => rfl
            have hone := syncOneImage_skip_eq hash rm master io0 orc0 path
              (get_images_dict rm (s₀.images.map (fun i => i.irec)) N P) mi.irec srec
              s fs hlk hstf
            rw [syncLoop_cons_eq hash rm master io0 orc0 path _ mi.irec rest s fs
              _ _ _ _ hone]
            have ihres := ih s fs hv1' hv2' hv3'
              (fun m' hm' => hB m' (List.mem_cons_of_mem _ hm')) hfr hnd hco
            refine runPost_step master path mi.irec rest s _ _ _ _ ihres hnm ?_ ?_
            · refine ⟨x₀, hBm, ?_⟩
              rw [hx₀rec]
              exact hstf
            · intro q _
              rfl

theorem syncLoop_skip (hash : List Nat → String) (rm : String → String → Bool)
    (master : Store) (io : String → Option Nat) (orc : String → RStep → Bool)
    (path : String) (dict : List (String × ImageRec)) :
    ∀ (vals : List ImageRec) (s : Store) (fs : FS),
    (∀ m ∈ vals, ∃ srec, alistGet m.name dict = some srec ∧ stale m srec = false) →
    syncLoop hash rm master io orc path dict vals s fs = ⟨s, fs, [], false, []⟩ := by
  intro vals
  induction vals with
  | nil =>
      intro s fs _
      rfl
  | cons m rest ih =>
      intro s fs h
      obtain ⟨srec, hlk, hst⟩ := h m (List.mem_cons_self _ _)
      have hone := syncOneImage_skip_eq hash rm master io orc path dict m srec s fs
        hlk hst
      rw [syncLoop_cons_eq hash rm master io orc path dict m rest s fs s fs [] []
        hone]
      rw [ih s fs (fun m' hm' => h m' (List.mem_cons_of_mem _ hm'))]
      rfl

theorem syncSlave_skip (hash : List Nat → String) (rm : String → String → Bool)
    (master : Store) (io : String → Option Nat) (orc : String → RStep → Bool)
    (path : String) (N : List String) (P : Option String) (vals : List ImageRec)
    (s : Store) (fs : FS)
    (hsel : ∀ m ∈ vals, addImage rm N P m.name = true)
    (hsynced : syncedFor vals s) :
    syncSlave hash rm master io orc path N P vals s fs = ⟨s, fs, [], false, []⟩ := by
  unfold syncSlave
  apply syncLoop_skip
  intro m hm
  obtain ⟨img, hsingle, hst⟩ := hsynced m hm
  refine ⟨img.irec, ?_, hst⟩
  rw [alistGet_get_images_dict, if_pos (hsel m hm)]
  exact lastRecNamed_of_single s.images img m.name hsingle

theorem syncSlave_run1 (hash : List Nat → String) (rm : String → String → Bool)
    (master : Store) (path : String) (N : List String) (P : Option String)
    (vals : List ImageRec) (s : Store) (fs : FS)
    (hMwf : masterWf hash master)
    (hsw : slaveWf s)
    (hv1 : ∀ m ∈ vals, ∃ mi ∈ master.images, mi.irec = m)
    (hv2 : ∀ m ∈ vals, addImage rm N P m.name = true)
    (hv3 : (vals.map (fun m => m.name)).Nodup)
    (hco : fsCoherent master path fs) :
    (syncSlave hash rm master io0 orc0 path N P vals s fs).raised = false
    ∧ syncedFor vals (syncSlave hash rm master io0 orc0 path N P vals s fs).slave
    ∧ fsCoherent master path (syncSlave hash rm master io0 orc0 path N P vals s fs).fs := by
  unfold syncSlave
  have h := syncLoop_run1 hash rm master path N P s hMwf hsw.1 vals s fs hv1 hv2 hv3
    (fun m _ => rfl) hsw.2.2 hsw.2.1 hco
  exact ⟨h.1, h.2.1, h.2.2.2.2.2⟩

theorem syncSlaves_cons_eq (hash : List Nat → String) (rm : String → String → Bool)
    (master : Store) (io : String → Option Nat) (orc : Nat → String → RStep → Bool)
    (path : String) (N : List String) (P : Option String) (vals : List ImageRec)
    (idx : Nat) (s : Store) (rest : List Store) (fs : FS)
    (hr : (syncSlave hash rm master io (orc idx) path N P vals s fs).raised = false) :
    syncSlaves hash rm master io orc path N P vals idx (s :: rest) fs
      = ⟨(syncSlave hash rm master io (orc idx) path N P vals s fs).slave
          :: (syncSlaves hash rm master io orc path N P vals (idx + 1) rest
              (syncSlave hash rm master io (orc idx) path N P vals s fs).fs).slaves,
         (syncSlaves hash rm master io orc path N P vals (idx + 1) rest
           (syncSlave hash rm master io (orc idx) path N P vals s fs).fs).fs,
         (syncSlave hash rm master io (orc idx) path N P vals s fs).acts
          :: (syncSlaves hash rm master io orc path N P vals (idx + 1) rest
              (syncSlave hash rm master io (orc idx) path N P vals s fs).fs).acts,
         (syncSlaves hash rm master io orc path N P vals (idx + 1) rest
           (syncSlave hash rm master io (orc idx) path N P vals s fs).fs).raised,
         (syncSlave hash rm master io (orc idx) path N P vals s fs).logs
          ++ (syncSlaves hash rm master io orc path N P vals (idx + 1) rest
              (syncSlave hash rm master io (orc idx) path N P vals s fs).fs).logs⟩ := by
  simp [syncSlaves, hr]

theorem syncSlaves_run1 (hash : List Nat → String) (rm : String → String → Bool)
    (master : Store) (path : String) (N : List String) (P : Option String)
    (vals : List ImageRec)
    (hMwf : masterWf hash master)
    (hv1 : ∀ m ∈ vals, ∃ mi ∈ master.images, mi.irec = m)
    (hv2 : ∀ m ∈ vals, addImage rm N P m.name = true)
    (hv3 : (vals.map (fun m => m.name)).Nodup) :
    ∀ (slaves : List Store) (idx : Nat) (fs : FS),
    (∀ s ∈ slaves, slaveWf s) →
    fsCoherent master path fs →
    (syncSlaves hash rm master io0 orcN0 path N P vals idx slaves fs).raised = false
    ∧ (∀ s' ∈ (syncSlaves hash rm master io0 orcN0 path N P vals idx slaves fs).slaves,
        syncedFor vals s')
    ∧ fsCoherent master path
        (syncSlaves hash rm master io0 orcN0 path N P vals idx slaves fs).fs := by
  intro slaves
  induction slaves with
  | nil =>
      intro idx fs _ hco
      exact ⟨rfl, by simp [syncSlaves], hco⟩
  | cons s rest ih =>
      intro idx fs hws hco
      have horc : orcN0 idx = orc0 := rfl
      have h1 := syncSlave_run1 hash rm master path N P vals s fs hMwf
        (hws s (List.mem_cons_self _ _)) hv1 hv2 hv3 hco
      rw [← horc] at h1
      rw [syncSlaves_cons_eq hash rm master io0 orcN0 path N P vals idx s rest fs h1.1]
      have ih2 := ih (idx + 1)
        (syncSlave hash rm master io0 (orcN0 idx) path N P vals s fs).fs
        (fun s' hs' => hws s' (List.mem_cons_of_mem _ hs')) h1.2.2
      refine ⟨ih2.1, ?_, ih2.2.2⟩
      intro s' hs'
      rcases List.mem_cons.mp hs' with rfl | hs'
      · exact h1.2.1
      · exact ih2.2.1 s' hs'

theorem syncSlaves_skip (hash : List Nat → String) (rm : String → String → Bool)
    (master : Store) (io : String → Option Nat) (orc : Nat → String → RStep → Bool)
    (path : String) (N : List String) (P : Option String) (vals : List ImageRec)
    (hsel : ∀ m ∈ vals, addImage rm N P m.name = true) :
    ∀ (slaves : List Store) (idx : Nat) (fs : FS),
    (∀ s ∈ slaves, syncedFor vals s) →
    syncSlaves hash rm master io orc path N P vals idx slaves fs
      = ⟨slaves, fs, slaves.map (fun _ => []), false, []⟩ := by
  intro slaves
  induction slaves with
  | nil =>
      intro idx fs _
      rfl
  | cons s rest ih =>
      intro idx fs hsynced
      have hskip := syncSlave_skip hash rm master io (orc idx) path N P vals s fs
        hsel (hsynced s (List.mem_cons_self _ _))
      rw [syncSlaves_cons_eq hash rm master io orc path N P vals idx s rest fs
        (by rw [hskip])]
      rw [hskip]
      rw [ih (idx + 1) fs (fun s' hs' => hsynced s' (List.mem_cons_of_mem _ hs'))]
      rfl

/-- C7 (amended): running reconcile twice against the same master, with
the first run free of transfer and store-step failures and every cache
file present at the start holding the true content of its master image
(for example an empty scratch directory), performs zero create, rename,
upload, or delete actions on any slave during the second run: every
selected image then compares equal and the whole second run is a no-op.
The master must be well-formed (sizes and checksums consistent with
content, distinct identifiers) and the slaves well-formed (distinct names
and identifiers).  The unamended claim fails when the initial cache holds
a wrong-content file of the right size (see the counterexample). -/
theorem sync_images_idempotent (hash : List Nat → String)
    (rm : String → String → Bool) (master : Store) (slaves : List Store)
    (N : List String) (P : Option String) (path : String)
    (io2 : String → Option Nat) (orc2 : Nat → String → RStep → Bool) (fs : FS)
    (hMwf : masterWf hash master)
    (hS : ∀ s ∈ slaves, slaveWf s)
    (hco : fsCoherent master path fs) :
    (sync_images hash rm master slaves N P path io0 orcN0 fs).raised = false
    ∧ sync_images hash rm master
        (sync_images hash rm master slaves N P path io0 orcN0 fs).slaves N P path
        io2 orc2 (sync_images hash rm master slaves N P path io0 orcN0 fs).fs
      = ⟨(sync_images hash rm master slaves N P path io0 orcN0 fs).slaves,
         (sync_images hash rm master slaves N P path io0 orcN0 fs).fs,
         (sync_images hash rm master slaves N P path io0 orcN0 fs).slaves.map
           (fun _ => []),
         false, []⟩
    ∧ ((sync_images hash rm master
        (sync_images hash rm master slaves N P path io0 orcN0 fs).slaves N P path
        io2 orc2 (sync_images hash rm master slaves N P path io0 orcN0 fs).fs).acts.all
          (fun l => l.isEmpty)) = true := by
  have hv1 : ∀ m ∈ dvalues (get_images_dict rm
      (master.images.map (fun i => i.irec)) N P),
      ∃ mi ∈ master.images, mi.irec = m := by
    intro m hm
    have := (dvalues_props rm _ N P m hm).1
    obtain ⟨mi, hmi, hrec⟩ := List.mem_map.mp this
    exact ⟨mi, hmi, hrec⟩
  have hv2 : ∀ m ∈ dvalues (get_images_dict rm
      (master.images.map (fun i => i.irec)) N P),
      addImage rm N P m.name = true :=
    fun m hm => (dvalues_props rm _ N P m hm).2
  have hv3 := dvalues_names_nodup rm (master.images.map (fun i => i.irec)) N P
  have hrun1 := syncSlaves_run1 hash rm master path N P _ hMwf hv1 hv2 hv3 slaves
    0 fs hS hco
  have hrun2 := syncSlaves_skip hash rm master io2 orc2 path N P _ hv2
    (sync_images hash rm master slaves N P path io0 orcN0 fs).slaves 0
    (sync_images hash rm master slaves N P path io0 orcN0 fs).fs hrun1.2.1
  refine ⟨hrun1.1, hrun2, ?_⟩
  rw [show sync_images hash rm master
      (sync_images hash rm master slaves N P path io0 orcN0 fs).slaves N P path
      io2 orc2 (sync_images hash rm master slaves N P path io0 orcN0 fs).fs
      = _ from hrun2]
  rw [List.all_eq_true]
  intro l hl
  obtain ⟨_, _, rfl⟩ := List.mem_map.mp hl
  rfl

/-- C7 witness: on a well-formed one-image master, an empty slave and an
empty scratch cache, the second run performs no slave actions at all. -/
theorem sync_images_idempotent_witness :
    ((sync_images hash0 rm0 master0
        (sync_images hash0 rm0 master0 [slaveE] [] none "/tmp" io0 orcN0 []).slaves
        [] none "/tmp" io0 orcN0
        (sync_images hash0 rm0 master0 [slaveE] [] none "/tmp" io0 orcN0 []).fs).acts.all
      (fun l => l.isEmpty)) = true :=
  (sync_images_idempotent hash0 rm0 master0 [slaveE] [] none "/tmp" io0 orcN0 []
    (And.intro (by decide) (by decide))
    (by
      intro s hs
      simp only [List.mem_singleton] at hs
      subst hs
      refine ⟨by decide, by decide, ?_⟩
      intro img h
      simp [slaveE] at h)
    (by
      intro mi hmi c hcc
      simp [fsGet, alistGet] at hcc)).2.2

end GlanceSync
